import Mathlib

/-!
Verification of the Sims 4 save-merger core (`sims4_save_merger`):
a shallow embedding of `dbpf_parser.py` (DBPF header/index codec, RefPack
decompression, container load/save) and `merger.py` (merge strategies),
together with theorems settling the specification claims.

Byte streams are modelled as `List Nat` (one Nat per byte; genuine byte
streams have all elements < 256, which holds by construction for every
stream the serializer emits).  Python exceptions are modelled as `Option`
(`none` = the operation raised); code that catches an exception matches on
the `Option`.  `struct.pack('<I', v)` raises on v ≥ 2^32; the embedding
`pack32` truncates mod 2^32 instead, and every theorem that serializes
restricts to field values in range, where the two agree.
-/

namespace DBPF

abbrev Bytes := List Nat

/-- Little-endian byte of rank `i` read via Python-style indexing
(`data[i]`); out-of-range reads yield 0 and are only used under explicit
range guards that mirror the source's guards. -/
def byteAt (b : Bytes) (i : Nat) : Nat := b.getD i 0

/-- Little-endian 32-bit read, `struct.unpack('<I', data[off:off+4])`.
Callers perform the bounds checks exactly where the source does. -/
def read32 (b : Bytes) (off : Nat) : Nat :=
  byteAt b off + 256 * byteAt b (off + 1) + 65536 * byteAt b (off + 2) +
    16777216 * byteAt b (off + 3)

/-- Little-endian 64-bit read, `struct.unpack('<Q', data[off:off+8])`. -/
def read64 (b : Bytes) (off : Nat) : Nat :=
  read32 b off + 4294967296 * read32 b (off + 4)

/-- Little-endian 32-bit write, `struct.pack('<I', n)`.  `struct.pack`
raises for n ≥ 2^32; this embedding truncates mod 2^32, and theorems about
serialization assume in-range values, where both agree. -/
def pack32 (n : Nat) : Bytes :=
  [n % 256, n / 256 % 256, n / 65536 % 256, n / 16777216 % 256]

/-- In-place buffer write at a fixed offset, `struct.pack_into` /
bytearray slice assignment. -/
def setBytes (buf : Bytes) (off : Nat) (v : Bytes) : Bytes :=
  buf.take off ++ v ++ buf.drop (off + v.length)

/-- The DBPF magic `b'DBPF'` as bytes. -/
def magicDBPF : Bytes := [68, 66, 80, 70]

/-- `DBPFHeader` dataclass of `dbpf_parser.py`. -/
structure DBPFHeader where
  magic : Bytes
  major_version : Nat
  minor_version : Nat
  index_entry_count : Nat
  index_offset : Nat
  index_size : Nat
  index_type : Nat
deriving DecidableEq

/-- `DBPFHeader.from_bytes`: parse the 96-byte header.  `none` models the
`ValueError`s raised for a short buffer or bad magic.  For major version 2
the index size is read at 68-72 falling back to 44-48 when zero, and the
index offset at 64-68 falling back to 40-44 when zero, exactly as in the
source. -/
def DBPFHeader.from_bytes (data : Bytes) : Option DBPFHeader :=
  if data.length < 96 then none
  else if data.take 4 = magicDBPF then
    let major_version := read32 data 4
    let minor_version := read32 data 8
    let index_type := read32 data 32
    let index_entry_count := read32 data 36
    if major_version = 2 then
      let index_offset0 := read32 data 64
      let index_size0 := read32 data 68
      let index_size := if index_size0 = 0 then read32 data 44 else index_size0
      let index_offset := if index_offset0 = 0 then read32 data 40 else index_offset0
      some ⟨data.take 4, major_version, minor_version, index_entry_count,
            index_offset, index_size, index_type⟩
    else
      some ⟨data.take 4, major_version, minor_version, index_entry_count,
            read32 data 40, read32 data 44, index_type⟩
  else none

/-- `DBPFHeader.to_bytes`: serialize a header back to 96 bytes.  Mirrors
the source field by field: bytearray(96) of zeros, magic spliced at 0:4
(bytearray slice assignment, which would resize for a magic of length ≠ 4,
exactly as modelled by the append), then `pack_into` at offsets 4, 8, 36,
64 and 68.  Note that nothing is written at offsets 32 (index type) or 80
(the loader sentinel). -/
def DBPFHeader.to_bytes (h : DBPFHeader) : Bytes :=
  let b0 : Bytes := List.replicate 96 0
  let b1 := h.magic ++ b0.drop 4
  let b2 := setBytes b1 4 (pack32 h.major_version)
  let b3 := setBytes b2 8 (pack32 h.minor_version)
  let b4 := setBytes b3 36 (pack32 h.index_entry_count)
  let b5 := setBytes b4 64 (pack32 h.index_offset)
  setBytes b5 68 (pack32 h.index_size)

/-- `IndexEntry` dataclass: one DBPF index record. -/
structure IndexEntry where
  type_id : Nat
  group_id : Nat
  instance_id : Nat
  offset : Nat
  file_size : Nat
  mem_size : Nat
  compressed : Bool
deriving DecidableEq

/-- Resource key (Type, Group, Instance), `IndexEntry.key`. -/
abbrev ResKey := Nat × Nat × Nat

def IndexEntry.key (e : IndexEntry) : ResKey :=
  (e.type_id, e.group_id, e.instance_id)

/-- `Resource` dataclass: index entry plus payload bytes. -/
structure Resource where
  entry : IndexEntry
  data : Bytes
deriving DecidableEq

def Resource.key (r : Resource) : ResKey := r.entry.key

/-- `DBPFFile._safe_unpack`: bounds-checked little-endian u32 read
returning (value, next offset); `none` models the raised `ValueError`. -/
def safeUnpack (data : Bytes) (offset : Nat) : Option (Nat × Nat) :=
  if offset + 4 ≤ data.length then some (read32 data offset, offset + 4) else none

/-- Reads one index field that may be constant-elided: a flagged-constant
field yields the stored constant without consuming bytes, otherwise a
`_safe_unpack` read. -/
def readField (data : Bytes) (c : Option Nat) (off : Nat) : Option (Nat × Nat) :=
  match c with
  | some v => some (v, off)
  | none => safeUnpack data off

/-- Reads an optional constant header field of the DBPF 2.0 index (present
exactly when the corresponding flag bit is set). -/
def readConst (data : Bytes) (b : Bool) (off : Nat) : Option (Option Nat × Nat) :=
  if b then (safeUnpack data off).map (fun vo => (some vo.1, vo.2))
  else some (none, off)

/-- One iteration of the `_parse_index_dbpf2` entry loop: type, group,
instance-high (each possibly constant), instance-low, offset, a size word
whose top bit is the compression flag, memory size, and — only if
compressed — one extra (discarded) compressed-size word.  `none` models
the `ValueError` that the loop catches to stop early. -/
def parseOneEntry (data : Bytes) (ct cg cih : Option Nat) (off0 : Nat) :
    Option (IndexEntry × Nat) := do
  let to1 ← readField data ct off0
  let go2 ← readField data cg to1.2
  let io3 ← readField data cih go2.2
  let lo4 ← safeUnpack data io3.2
  let instance_id := Nat.lor (io3.1 <<< 32) lo4.1
  let eo5 ← safeUnpack data lo4.2
  let fo6 ← safeUnpack data eo5.2
  let compressed : Bool := fo6.1 &&& 0x80000000 != 0
  let file_size := fo6.1 &&& 0x7FFFFFFF
  let mo7 ← safeUnpack data fo6.2
  let off8 ← if compressed then (safeUnpack data mo7.2).map Prod.snd else pure mo7.2
  pure (⟨to1.1, go2.1, instance_id, eo5.1, file_size, mo7.1, compressed⟩, off8)

/-- The per-entry loop of `_parse_index_dbpf2`: decode up to `count`
records, stopping at the first record that cannot be fully decoded (the
caught `ValueError`) and returning the records decoded so far. -/
def parseEntriesLoop (data : Bytes) (ct cg cih : Option Nat) :
    Nat → Nat → List IndexEntry
  | 0, _ => []
  | n + 1, off =>
    match parseOneEntry data ct cg cih off with
    | none => []
    | some eo => eo.1 :: parseEntriesLoop data ct cg cih n eo.2

/-- `DBPFFile._parse_index_dbpf2`: flags word, optional constant fields,
then the entry loop.  `none` models a `ValueError` escaping from the
pre-loop reads (those are outside the loop's try/except). -/
def parse_index_dbpf2 (data : Bytes) (count : Nat) : Option (List IndexEntry) := do
  let fl ← safeUnpack data 0
  let c1 ← readConst data (fl.1 &&& 0x01 ≠ 0) fl.2
  let c2 ← readConst data (fl.1 &&& 0x02 ≠ 0) c1.2
  let c3 ← readConst data (fl.1 &&& 0x04 ≠ 0) c2.2
  pure (parseEntriesLoop data c1.1 c2.1 c3.1 count c3.2)

/-- `DBPFFile._parse_index_fixed`: fallback fixed 32-byte-per-record
layout.  The first word is probed: a value < 8 is treated as a flags word
(skipping any constant fields); `remaining // 32` bounds the record count
(Python's negative floor division yields an empty range exactly like Nat
truncated subtraction).  `none` models the unpack `error` on a buffer of
fewer than 4 bytes (guarded by the caller). -/
def parse_index_fixed (data : Bytes) (count : Nat) : Option (List IndexEntry) :=
  if data.length < 4 then none
  else
    let first_val := read32 data 0
    let offset :=
      if first_val < 8 then
        4 + (if first_val &&& 0x01 ≠ 0 then 4 else 0) +
          (if first_val &&& 0x02 ≠ 0 then 4 else 0) +
          (if first_val &&& 0x04 ≠ 0 then 4 else 0)
      else 0
    let remaining := data.length - offset
    let actual_count := min count (remaining / 32)
    some ((List.range actual_count).map (fun i =>
      let base := offset + i * 32
      let file_size_raw := read32 data (base + 20)
      { type_id := read32 data base
        group_id := read32 data (base + 4)
        instance_id := read64 data (base + 8)
        offset := read32 data (base + 16)
        file_size := file_size_raw &&& 0x7FFFFFFF
        mem_size := read32 data (base + 24)
        compressed := file_size_raw &&& 0x80000000 ≠ 0 }))

/-- `DBPFFile._parse_index`: empty-count / short-buffer guard, then try
the DBPF 2.0 layout, falling back to the fixed layout only when the
primary attempt raised or yielded no records; every exception is caught,
so the function itself is total. -/
def parse_index (data : Bytes) (count : Nat) : List IndexEntry :=
  if count = 0 ∨ data.length < 4 then []
  else
    match parse_index_dbpf2 data count with
    | some (e :: es) => e :: es
    | _ =>
      match parse_index_fixed data count with
      | some (e :: es) => e :: es
      | _ => []

/-- The literal-append loop of `_decompress_refpack`:
`for _ in range(n): if pos < len(data): result.append(data[pos]); pos += 1`.
Returns the grown buffer and the final position. -/
def litLoop (data : Bytes) : Nat → Nat → Bytes → Bytes × Nat
  | 0, pos, res => (res, pos)
  | n + 1, pos, res =>
    if pos < data.length then litLoop data n (pos + 1) (res ++ [byteAt data pos])
    else litLoop data n pos res

/-- The guarded back-copy loop of `_decompress_refpack`:
`for i in range(n): if 0 <= start+i < len(result): result.append(result[start+i])`.
`start` is an integer because the source computes
`len(result) - copy_offset - 1`, which can be negative. -/
def copyLoop (start : Int) : Nat → Nat → Bytes → Bytes
  | 0, _, res => res
  | n + 1, i, res =>
    let idx := start + i
    let res' :=
      if 0 ≤ idx ∧ idx.toNat < res.length then res ++ [byteAt res idx.toNat]
      else res
    copyLoop start n (i + 1) res'

/-- The main control-byte loop of `_decompress_refpack`
(`while pos < len(data) and len(result) < target_size`), with one unit of
fuel per iteration.  Every iteration advances `pos` by at least one, so
calling with `fuel = data.length` makes the fuel-exhaustion branch
unreachable while the guard still holds: the function then computes
exactly what the unbounded source loop computes (see
`refpackLoop_pos_mono` and the fuel-adequacy argument in
`decompress_refpack`). -/
def refpackLoop (data : Bytes) (target : Nat) : Nat → Nat → Bytes → Bytes
  | 0, _, res => res
  | fuel + 1, pos, res =>
    if pos < data.length ∧ res.length < target then
      let ctrl := byteAt data pos
      let pos1 := pos + 1
      if ctrl < 0x80 then
        -- literal bytes + short copy
        let num_literal := ctrl &&& 0x03
        let co0 := (ctrl &&& 0x60) <<< 3
        let cop :=
          if pos1 < data.length then (Nat.lor co0 (byteAt data pos1), pos1 + 1)
          else (co0, pos1)
        let copy_length := ((ctrl >>> 2) &&& 0x07) + 3
        let rp := litLoop data num_literal cop.2 res
        let res2 :=
          if cop.1 > 0 then
            copyLoop ((rp.1.length : Int) - cop.1 - 1) copy_length 0 rp.1
          else rp.1
        refpackLoop data target fuel rp.2 res2
      else if ctrl < 0xC0 then
        -- two-byte control pattern
        let num_literal := if pos1 < data.length then byteAt data pos1 >>> 6 else 0
        let copy_length := (ctrl &&& 0x3F) + 4
        let co0 := if pos1 < data.length then (byteAt data pos1 &&& 0x3F) <<< 8 else 0
        let pos2 := pos1 + 1
        let cop :=
          if pos2 < data.length then (Nat.lor co0 (byteAt data pos2), pos2 + 1)
          else (co0, pos2)
        let rp := litLoop data num_literal cop.2 res
        let res2 := copyLoop ((rp.1.length : Int) - cop.1 - 1) copy_length 0 rp.1
        refpackLoop data target fuel rp.2 res2
      else if ctrl < 0xE0 then
        -- large copy
        let num_literal := ctrl &&& 0x03
        let cl0 := ((ctrl >>> 2) &&& 0x03) * 256
        let clp :=
          if pos1 < data.length then (cl0 + byteAt data pos1 + 5, pos1 + 1)
          else (cl0, pos1)
        let cop :=
          if clp.2 + 1 < data.length then
            (Nat.lor (byteAt data clp.2 <<< 8) (byteAt data (clp.2 + 1)), clp.2 + 2)
          else (0, clp.2)
        let rp := litLoop data num_literal cop.2 res
        let res2 := copyLoop ((rp.1.length : Int) - cop.1 - 1) clp.1 0 rp.1
        refpackLoop data target fuel rp.2 res2
      else if ctrl < 0xFC then
        -- literal run
        let num_literal := ((ctrl &&& 0x1F) + 1) * 4
        let rp := litLoop data num_literal pos1 res
        refpackLoop data target fuel rp.2 rp.1
      else
        -- short literal
        let num_literal := ctrl &&& 0x03
        let rp := litLoop data num_literal pos1 res
        refpackLoop data target fuel rp.2 rp.1
    else res

/-- `DBPFFile._decompress_refpack`: skip the 2- or 5-byte signature header
selected by the first byte, then run the control loop.  The only
unguarded byte access of the source is `data[0]`, so `none` models the
`IndexError` on an empty input; every other access is guarded and the
function always returns a (possibly partial) buffer. -/
def decompress_refpack (data : Bytes) (target_size : Nat) : Option Bytes :=
  match data with
  | [] => none
  | b :: _ =>
    let pos := if b &&& 0x80 ≠ 0 then 5 else if b &&& 0x40 ≠ 0 then 5 else 2
    some (refpackLoop data target_size data.length pos [])

/-- Deflate (zlib) signatures recognised for whole-file compression in
`DBPFFile.load`. -/
def zlibFileSigs : List Bytes := [[0x78, 0x9C], [0x78, 0xDA], [0x78, 0x01], [0x78, 0x5E]]

/-- `DBPFFile._decompress`: dispatch on leading magic bytes.  The zlib
path calls the platform inflate, abstracted as the oracle `z` (`none` =
`zlib.error`); the RefPack path requires at least 5 bytes.  Anything else
is returned raw. -/
def decompress (z : Bytes → Option Bytes) (data : Bytes) (target_size : Nat) :
    Option Bytes :=
  if data.length < 2 then some data
  else if data.take 2 = [0x78, 0x9C] ∨ data.take 2 = [0x78, 0xDA] then z data
  else if 5 ≤ data.length ∧
      (data.take 2 = [0x10, 0xFB] ∨ data.take 2 = [0x50, 0xFB] ∨
        data.take 2 = [0x90, 0xFB]) then
    decompress_refpack data target_size
  else some data

/-- Association list standing for the Python insertion-ordered dict
`resources : Dict[Tuple[int,int,int], Resource]`. -/
abbrev ResMap := List (ResKey × Resource)

/-- Dict lookup `m[k]` / `k in m`. -/
def aLookup (k : ResKey) : ResMap → Option Resource
  | [] => none
  | p :: ps => if p.1 = k then some p.2 else aLookup k ps

/-- Dict assignment `m[k] = v`: replaces in place when the key exists
(keeping its position, as Python dicts do), appends otherwise. -/
def dictInsert (m : ResMap) (k : ResKey) (v : Resource) : ResMap :=
  if (aLookup k m).isSome then m.map (fun p => if p.1 = k then (k, v) else p)
  else m ++ [(k, v)]

/-- The index-slice computation of `DBPFFile.load`: the declared size is
clamped to the actual stream length when the declared region overruns the
end of the stream. -/
def index_region (fileData : Bytes) (off size : Nat) : Bytes :=
  if off + size > fileData.length then
    (fileData.drop off).take (fileData.length - off)
  else (fileData.drop off).take size

/-- One iteration of the resource-extraction loop of `DBPFFile.load`: skip
(with a printed warning) when the offset is past the end of the stream,
clamp the data slice to the stream, skip silently when the slice is
empty, decompress when flagged compressed with differing sizes (keeping
the raw bytes when decompression raises), and insert into the map. -/
def loadStep (z : Bytes → Option Bytes) (fileData : Bytes) (m : ResMap)
    (e : IndexEntry) : ResMap :=
  if fileData.length ≤ e.offset then m
  else
    let end_offset := min (e.offset + e.file_size) fileData.length
    let raw_data := (fileData.drop e.offset).take (end_offset - e.offset)
    if raw_data.length = 0 then m
    else
      let d :=
        if e.compressed ∧ e.file_size ≠ e.mem_size then
          match decompress z raw_data e.mem_size with
          | some d => d
          | none => raw_data
        else raw_data
      dictInsert m e.key ⟨e, d⟩

/-- `DBPFFile.load`, given the raw stream (the file's bytes): whole-file
zlib layer (oracle `z`; a failed inflate raises), minimum length check,
header parse, hard failure when the index offset exceeds the stream
length, index-size clamping, index parse, resource extraction.  `none`
models any raised `ValueError`; the result is the parsed header plus the
resource map. -/
def load (z : Bytes → Option Bytes) (raw : Bytes) :
    Option (DBPFHeader × ResMap) := do
  let fileData ← if raw.take 2 ∈ zlibFileSigs then z raw else some raw
  if fileData.length < 96 then none
  else do
    let header ← DBPFHeader.from_bytes (fileData.take 96)
    if header.index_offset > fileData.length then none
    else
      let index_data := index_region fileData header.index_offset header.index_size
      let entries := parse_index index_data header.index_entry_count
      pure (header, entries.foldl (fun m e => loadStep z fileData m e) [])

/-- Entry serialization inside `DBPFFile._build_index`: 7 little-endian
words (instance split high/low, compression flag in the top bit of the
size word) plus, for a compressed entry, the redundant compressed-size
word. -/
def encodeEntry (e : IndexEntry) : Bytes :=
  pack32 e.type_id ++ pack32 e.group_id ++ pack32 (e.instance_id >>> 32) ++
    pack32 (e.instance_id &&& 0xFFFFFFFF) ++ pack32 e.offset ++
    pack32 (if e.compressed then e.file_size ||| 0x80000000 else e.file_size) ++
    pack32 e.mem_size ++
    (if e.compressed then pack32 e.file_size else [])

/-- `DBPFFile._build_index`: a zero flags word (no constant-field
elision), then the serialized entries. -/
def build_index (entries : List IndexEntry) : Bytes :=
  if entries = [] then pack32 0
  else pack32 0 ++ entries.flatMap encodeEntry

/-- The entry-building loop of `DBPFFile.save`: each resource is written
uncompressed at the running data offset (starting at 96, just after the
header), with file and memory size both equal to the payload length. -/
def buildEntries : ResMap → Nat → List IndexEntry
  | [], _ => []
  | p :: ps, off =>
    ⟨p.1.1, p.1.2.1, p.1.2.2, off, p.2.data.length, p.2.data.length, false⟩ ::
      buildEntries ps (off + p.2.data.length)

/-- The resource-data blob of `DBPFFile.save`: payloads concatenated in
map iteration order. -/
def blob (rs : ResMap) : Bytes := rs.flatMap (fun p => p.2.data)

/-- Header segment of `DBPFFile.save` covering offsets 0-35: magic,
major 2, minor 1, user versions, flags, timestamps, index type 0 — each
word exactly as the corresponding `pack_into` writes it. -/
def hdrA : Bytes :=
  magicDBPF ++ pack32 2 ++ pack32 1 ++ pack32 0 ++ pack32 0 ++ pack32 0 ++
    pack32 0 ++ pack32 0 ++ pack32 0

/-- Header segment for offsets 48-63: hole count/offset/size zero, index
minor version 3. -/
def hdrC : Bytes := pack32 0 ++ pack32 0 ++ pack32 0 ++ pack32 3

/-- Header segment for offsets 68-95: zero at 68-71 (the primary
index-size slot), untouched zero bytes 72-79, the 0xFFFF sentinel pair at
80-81 (`struct.pack_into('<H', header, 80, 0xFFFF)`), untouched zero
bytes 82-95. -/
def hdrD : Bytes := pack32 0 ++ List.replicate 8 0 ++ [255, 255] ++ List.replicate 14 0

/-- The 96-byte header that `DBPFFile.save` builds in place with
`pack_into`, laid out segment by segment in offset order: 0-35 `hdrA`,
36-39 entry count, 40-43 zero, 44-47 index size (the alternate slot),
48-63 `hdrC`, 64-67 index offset, 68-95 `hdrD`. -/
def save_header (count offset size : Nat) : Bytes :=
  hdrA ++ pack32 count ++ pack32 0 ++ pack32 size ++ hdrC ++ pack32 offset ++ hdrD

/-- `DBPFFile.save` with `compress_file=False` (the merger's call):
header, resource payloads (stored uncompressed), normalized index. -/
def save (rs : ResMap) : Bytes :=
  let entries := buildEntries rs 96
  let index_data := build_index entries
  let index_offset := 96 + (blob rs).length
  save_header rs.length index_offset index_data.length ++ blob rs ++ index_data

/-- `MergeStrategy` enum of `merger.py`. -/
inductive MergeStrategy where
  | newer_base_add_missing
  | older_base_add_newer
  | smart_merge
  | prefer_larger
  | working_base
  | manual_select
deriving DecidableEq

/-- `MergeResult` dataclass.  The output path is abstracted to
`Option Unit` (`some ()` = the output path was returned, `none` = the
`None` returned on failure); provenance counts are integers because the
WORKING_BASE branch decrements `resources_from_older` unconditionally. -/
structure MergeResult where
  success : Bool
  output_file : Option Unit
  resources_from_newer : Int
  resources_from_older : Int
  resources_total : Nat
  errors : List String
  warnings : List String
deriving DecidableEq

/-- `Sims4SaveMerger.SIM_RELATED_TYPES`. -/
def SIM_RELATED_TYPES : List Nat :=
  [0xC0DB5AE7, 0xB61DE6B4, 0x0C772E27, 0x3BD45407, 0x0000000D, 0x0000000F,
    0x00000014, 0x00000015]

/-- `Sims4SaveMerger.WORLD_RELATED_TYPES`. -/
def WORLD_RELATED_TYPES : List Nat :=
  [0xE882D22F, 0xDC95CF1A, 0x62ECC59A, 0x00000006]

/-- The conflicting keys of `compare_files` (`different`), kept with both
resources: keys present in both containers whose payload bytes differ.
The source iterates a Python set here; iteration order only affects
ordering of the output dict, never its contents or any count, so the
newer container's insertion order is used. -/
def differentPairs (newer older : ResMap) : List (ResKey × Resource × Resource) :=
  newer.filterMap (fun p =>
    match aLookup p.1 older with
    | some r => if p.2.data = r.data then none else some (p.1, p.2, r)
    | none => none)

/-- The per-key size test of `Sims4SaveMerger._detect_empty_resources`:
for lot data (type 0x6) older more than 10x larger, or newer under 2000
bytes with older more than 5x larger; for the other world-related types
newer under 100 bytes with older more than 5x larger; otherwise older
over 1000 bytes and newer under 5% of older.  The source's
`newer_size < older_size * 0.05` is a float comparison; for sizes below
2^31 it is exactly equivalent to `20 * newer_size < older_size` (0.05
rounds up as a double, and the product rounds back down onto the exact
multiple whenever older is divisible by 20, the only boundary case). -/
def detect_empty_cond (t ns os : Nat) : Bool :=
  if t = 0x00000006 then (ns * 10 < os) || (ns < 2000 && ns * 5 < os)
  else if t ∈ WORLD_RELATED_TYPES then ns < 100 && ns * 5 < os
  else 1000 < os && 20 * ns < os

/-- `Sims4SaveMerger._detect_empty_resources`: conflicting keys whose
newer version looks corrupted/empty. -/
def detect_empty_resources (newer older : ResMap) : List ResKey :=
  ((differentPairs newer older).filter
    (fun q => detect_empty_cond q.1.1 q.2.1.data.length q.2.2.data.length)).map
    Prod.fst

/-- `Sims4SaveMerger._get_larger_resources`: conflicting keys whose older
version is strictly larger. -/
def get_larger_resources (newer older : ResMap) : List ResKey :=
  ((differentPairs newer older).filter
    (fun q => q.2.1.data.length < q.2.2.data.length)).map Prod.fst

/-- Strategy-based `use_older_keys` selection in `Sims4SaveMerger.merge`
(the WORKING_BASE branch never reaches this point; every other strategy
that is not SMART_MERGE or PREFER_LARGER leaves the set empty). -/
def use_older_keys (strategy : MergeStrategy) (newer older : ResMap) : List ResKey :=
  match strategy with
  | .smart_merge => detect_empty_resources newer older
  | .prefer_larger => get_larger_resources newer older
  | _ => []

/-- Keys only in the older container (`only_in_file2`), as pairs, in the
older container's insertion order (set iteration order is irrelevant to
contents and counts, see `differentPairs`). -/
def onlyInOlder (newer older : ResMap) : ResMap :=
  older.filter (fun p => (aLookup p.1 newer).isNone)

/-- The missing-resource list actually added by `merge`: all of
`only_in_file2`, or its intersection with the caller's `resources_to_add`
(`None` means add everything; an explicit set is intersected). -/
def toAddList (newer older : ResMap) (resources_to_add : Option (List ResKey)) :
    ResMap :=
  match resources_to_add with
  | some s => (onlyInOlder newer older).filter (fun p => p.1 ∈ s)
  | none => onlyInOlder newer older

/-- Per-key decision of the main conflict loop of `merge`: the explicit
`resources_from_older` override (`if resources_from_older and key in ...`:
an empty or absent set is falsy) or strategy membership. -/
def useOlderFor (fromOlder : Option (List ResKey)) (uok : List ResKey)
    (k : ResKey) : Bool :=
  (match fromOlder with
   | some s => decide (k ∈ s)
   | none => false) || decide (k ∈ uok)

/-- The merged in-memory container built by the main path of
`Sims4SaveMerger.merge` (every strategy except WORKING_BASE): all newer
resources, each replaced by the older version when flagged and present in
the older container, then all missing resources from the older
container. -/
def mergedMain (newer older : ResMap) (uok : List ResKey)
    (fromOlder toAdd : Option (List ResKey)) : ResMap :=
  let base := newer.foldl (fun m p =>
    if useOlderFor fromOlder uok p.1 then
      match aLookup p.1 older with
      | some r => dictInsert m p.1 r
      | none => dictInsert m p.1 p.2
    else dictInsert m p.1 p.2) []
  (toAddList newer older toAdd).foldl (fun m p => dictInsert m p.1 p.2) base

/-- The merged container built by the WORKING_BASE branch: all older
resources, sim-related types overwritten from newer, then newer-only keys
added. -/
def mergedWorkingBase (newer older : ResMap) : ResMap :=
  let m0 := older.foldl (fun m p => dictInsert m p.1 p.2) []
  let m1 := newer.foldl (fun m p =>
    if p.1.1 ∈ SIM_RELATED_TYPES then dictInsert m p.1 p.2 else m) m0
  (newer.filter (fun p => (aLookup p.1 older).isNone)).foldl
    (fun m p => if (aLookup p.1 m).isNone then dictInsert m p.1 p.2 else m) m1

/-- `Sims4SaveMerger.merge`.  `saveExc` abstracts the outcome of
`merged.save(output_path)`: `none` = the write succeeded, `some msg` =
save raised an exception with message `msg` (file I/O is outside the
embedding).  Backups are modelled for a fresh output path (no
pre-existing file, hence no backup warning).  Note the source returns
ONLY this `MergeResult`; the merged container (`mergedMain` /
`mergedWorkingBase`) stays a local variable and is dropped. -/
def merge (newer older : ResMap) (strategy : MergeStrategy)
    (toAdd fromOlder : Option (List ResKey)) (saveExc : Option String) :
    MergeResult :=
  match strategy with
  | .working_base =>
    let cOld0 : Int := older.length
    let simUpdates := (newer.filter (fun p => p.1.1 ∈ SIM_RELATED_TYPES)).length
    let cNew0 : Int := simUpdates
    let merged0 := older.foldl (fun m p => dictInsert m p.1 p.2) []
    let merged1 := newer.foldl (fun m p =>
      if p.1.1 ∈ SIM_RELATED_TYPES then dictInsert m p.1 p.2 else m) merged0
    let addedPairs := (newer.filter (fun p => (aLookup p.1 older).isNone)).filter
      (fun p => (aLookup p.1 merged1).isNone)
    let merged := mergedWorkingBase newer older
    let cNew := cNew0 + addedPairs.length
    let cOld := cOld0 - simUpdates
    let warnings :=
      ["Working base strategie: werkende save als basis, alleen sim-data van nieuwere",
       "Updated " ++ toString simUpdates ++ " sim-gerelateerde resources van nieuwere save"]
    match saveExc with
    | some msg =>
      ⟨false, none, cNew, cOld, merged.length, ["Fout bij opslaan: " ++ msg], warnings⟩
    | none => ⟨true, some (), cNew, cOld, merged.length, [], warnings⟩
  | _ =>
    let uok := use_older_keys strategy newer older
    let warnings :=
      if strategy = .smart_merge ∧ uok ≠ [] then
        ["Smart merge: " ++ toString uok.length ++
          " resources worden uit oudere save genomen (lege/corrupte detectie)"]
      else if strategy = .prefer_larger ∧ uok ≠ [] then
        ["Prefer larger: " ++ toString uok.length ++
          " resources worden uit oudere save genomen (grotere versie)"]
      else []
    let takeOlder := fun (p : ResKey × Resource) =>
      useOlderFor fromOlder uok p.1 && (aLookup p.1 older).isSome
    let cNew : Int := (newer.filter (fun p => ¬ takeOlder p)).length
    let cOld : Int := (newer.filter takeOlder).length + (toAddList newer older toAdd).length
    let merged := mergedMain newer older uok fromOlder toAdd
    match saveExc with
    | some msg =>
      ⟨false, none, cNew, cOld, merged.length, ["Fout bij opslaan: " ++ msg], warnings⟩
    | none => ⟨true, some (), cNew, cOld, merged.length, [], warnings⟩

/-- The resource value the main merge loop stores for one newer pair `p`:
the older container's version when the key is flagged and present there,
otherwise the newer version (the loop body of `merge`, factored as a
function of the pair for the lookup lemmas). -/
def mergeChoice (older : ResMap) (uok : List ResKey)
    (fromOlder : Option (List ResKey)) (p : ResKey × Resource) : Resource :=
  if useOlderFor fromOlder uok p.1 then
    match aLookup p.1 older with
    | some r => r
    | none => p.2
  else p.2

/-- First pair of an association list with the given key (the pair-valued
companion of `aLookup`). -/
def aLookupP (k : ResKey) : ResMap → Option (ResKey × Resource)
  | [] => none
  | p :: ps => if p.1 = k then some p else aLookupP k ps

/-- Definition following the WORDS OF THE SPEC for the SmartMerge
substitution condition (claim C3), to be compared with the source's
`detect_empty_cond`: the key's type is in the structural/world-data
allowlist and the older payload is at least 10x the newer, or the newer
is under 2000 bytes and the older at least 5x larger; OR, for any type,
the older payload is at least 1000 bytes and the newer under 5% of the
older's size. -/
def smartMergeSpecCond (t ns os : Nat) : Bool :=
  (decide (t ∈ WORLD_RELATED_TYPES) &&
    (10 * ns ≤ os || (ns < 2000 && 5 * ns ≤ os))) ||
  (1000 ≤ os && 20 * ns < os)


/-- Field bounds under which `struct.pack` in `_build_index` succeeds (no
u32/u64 overflow) and the compression flag behaves: exactly the entries
`DBPFFile.save` produces for payloads below 2 GiB. -/
def entryWF (e : IndexEntry) : Prop :=
  e.type_id < 4294967296 ∧ e.group_id < 4294967296 ∧
    e.instance_id < 18446744073709551616 ∧ e.offset < 4294967296 ∧
    e.file_size < 2147483648 ∧ e.mem_size < 2147483648

/-- Well-formedness of an in-memory container for the round-trip claim:
unique keys (a Python dict guarantees this), key fields within the u32/u64
ranges `struct.pack` accepts, non-empty payloads below 2 GiB, and a total
serialized size below 2^32 so every stored offset/size fits its field. -/
def WFResources (rs : ResMap) : Prop :=
  (rs.map Prod.fst).Nodup ∧
    (∀ p ∈ rs, p.1.1 < 4294967296 ∧ p.1.2.1 < 4294967296 ∧
      p.1.2.2 < 18446744073709551616 ∧ 0 < p.2.data.length ∧
      p.2.data.length < 2147483648) ∧
    96 + (blob rs).length + (4 + 28 * rs.length) < 4294967296


/-- The seven (eight when compressed) little-endian words of one encoded
index entry, in the order `_build_index` packs them — `encodeEntry` is
exactly their concatenation as u32s (see `encodeEntry_words`). -/
def entryWords (e : IndexEntry) : List Nat :=
  [e.type_id, e.group_id, e.instance_id >>> 32, e.instance_id &&& 4294967295,
    e.offset, if e.compressed then e.file_size ||| 2147483648 else e.file_size,
    e.mem_size] ++ (if e.compressed then [e.file_size] else [])

/-- Concrete 96-byte header exercising both alternate fields: primary
index offset (64-68) and primary index size (68-72) are zero, the
alternate offset field (40-44) holds 5 and the alternate size field
(44-48) holds 7. -/
def headerAltBuf : Bytes :=
  magicDBPF ++ pack32 2 ++ List.replicate 32 0 ++ pack32 5 ++ pack32 7 ++
    List.replicate 48 0

/-- Concrete header used to exhibit C8's failure on `to_bytes`. -/
def hdr0 : DBPFHeader := ⟨magicDBPF, 2, 1, 0, 96, 4, 0⟩

/-- Zlib oracle for concrete streams that never reach a zlib path. -/
def zlibNone : Bytes → Option Bytes := fun _ => none

/-- Concrete 96-byte stream whose header is valid (magic, major version
2) but declares index offset 200, beyond the stream's end. -/
def c9buf : Bytes :=
  magicDBPF ++ pack32 2 ++ List.replicate 56 0 ++ pack32 200 ++
    List.replicate 28 0

/-- Concrete 100-byte stream: valid header, index offset 96 (in range),
declared index size 1000 overrunning the end by far. -/
def c9buf2 : Bytes :=
  magicDBPF ++ pack32 2 ++ List.replicate 56 0 ++ pack32 96 ++ pack32 1000 ++
    List.replicate 24 0 ++ [9, 9, 9, 9]

/-- Placeholder index entry for hand-built in-memory resources. -/
def dummyEntry : IndexEntry := ⟨0, 0, 0, 0, 0, 0, false⟩

def c2newerA : ResMap := [((5, 0, 0), ⟨dummyEntry, [1]⟩)]

def c2newerB : ResMap := [((5, 0, 0), ⟨dummyEntry, [2]⟩)]

def c7newer : ResMap := [((1, 0, 0), ⟨dummyEntry, [1, 2]⟩)]

def c7older : ResMap := [((1, 0, 0), ⟨dummyEntry, [3, 4, 5]⟩)]

def lotKey : ResKey := (0xE882D22F, 0, 1)

def c3newer : ResMap := [(lotKey, ⟨dummyEntry, List.replicate 100 1⟩)]

def c3older : ResMap := [(lotKey, ⟨dummyEntry, List.replicate 500 2⟩)]

def c3wNewer : ResMap := [((6, 0, 9), ⟨dummyEntry, [1]⟩)]

def c3wOlder : ResMap := [((6, 0, 9), ⟨dummyEntry, List.replicate 20 2⟩)]

/-- Two concrete well-formed uncompressed index entries used to exercise the
truncation behaviour on a real encoded index. -/
def c6eA : IndexEntry := ⟨1, 2, 3, 96, 1, 1, false⟩

def c6eB : IndexEntry := ⟨4, 5, 6, 97, 1, 1, false⟩

instance instDecidableEntryWF (e : IndexEntry) : Decidable (entryWF e) := by
  unfold entryWF
  infer_instance

instance instDecidableWFResources (rs : ResMap) : Decidable (WFResources rs) := by
  unfold WFResources
  infer_instance

/-- The resource map the extraction loop of `load` rebuilds from a stream
written by `save`: the same keys in the same order, each resource holding
the normalized uncompressed index entry `save` wrote for it and the
original payload bytes. -/
def loadedMap : ResMap → Nat → ResMap
  | [], _ => []
  | p :: ps, off =>
    (p.1, ⟨⟨p.1.1, p.1.2.1, p.1.2.2, off, p.2.data.length, p.2.data.length,
      false⟩, p.2.data⟩) :: loadedMap ps (off + p.2.data.length)

/-- A container holding one resource whose payload is empty. -/
def rsEmptyPayload : ResMap := [((1, 2, 3), ⟨dummyEntry, []⟩)]

/-- A small well-formed container for the round-trip witness. -/
def rs0 : ResMap := [((1, 0, 2), ⟨dummyEntry, [7]⟩)]

/-- Index bytes of a single compressed entry (type 1, group 2, instance 3,
offset 96, compressed size 5, memory size 10): zero flags word, seven entry
words with the compression bit set in the size word, plus the redundant
compressed-size word. -/
def c10index : Bytes :=
  pack32 0 ++ pack32 1 ++ pack32 2 ++ pack32 0 ++ pack32 3 ++ pack32 96 ++
    pack32 2147483653 ++ pack32 10 ++ pack32 5

/-- A 137-byte stream: valid save-style header (1 entry, index at 101,
size 36), a 5-byte RefPack payload that decodes to zero bytes (nothing
follows the 5-byte signature header), and the index. -/
def c10file : Bytes :=
  save_header 1 101 36 ++ ([0x50, 0xFB, 0, 0, 0] ++ c10index)

/-- The resource map `load` builds from `c10file`: one resource whose
decompressed payload is empty. -/
def c10m : ResMap := [((1, 2, 3), ⟨⟨1, 2, 3, 96, 5, 10, true⟩, []⟩)]

end DBPF

namespace DBPF

/- ### Basic byte-level lemmas -/

theorem pack32_length (n : Nat) : (pack32 n).length = 4 := rfl

theorem byteAt_append_left {l1 l2 : Bytes} {i : Nat} (h : i < l1.length) :
    byteAt (l1 ++ l2) i = byteAt l1 i := by
  simp [byteAt, List.getElem?_append_left h]

theorem byteAt_append_right {l1 l2 : Bytes} {i : Nat} (h : l1.length ≤ i) :
    byteAt (l1 ++ l2) i = byteAt l2 (i - l1.length) := by
  simp [byteAt, List.getElem?_append_right h]

theorem read32_append_right {l1 l2 : Bytes} {off : Nat} (h : l1.length ≤ off) :
    read32 (l1 ++ l2) off = read32 l2 (off - l1.length) := by
  unfold read32
  rw [byteAt_append_right h, byteAt_append_right (by omega),
    byteAt_append_right (by omega), byteAt_append_right (by omega),
    show off + 1 - l1.length = off - l1.length + 1 by omega,
    show off + 2 - l1.length = off - l1.length + 2 by omega,
    show off + 3 - l1.length = off - l1.length + 3 by omega]

theorem read32_append_left {l1 l2 : Bytes} {off : Nat} (h : off + 4 ≤ l1.length) :
    read32 (l1 ++ l2) off = read32 l1 off := by
  unfold read32
  rw [byteAt_append_left (by omega), byteAt_append_left (by omega),
    byteAt_append_left (by omega), byteAt_append_left (by omega)]

theorem read32_pack32_append (n : Nat) (rest : Bytes) :
    read32 (pack32 n ++ rest) 0 = n % 4294967296 := by
  simp [read32, pack32, byteAt]
  omega

theorem read32_pack32_at {pre : Bytes} {off : Nat} (h : pre.length = off)
    (n : Nat) (rest : Bytes) :
    read32 (pre ++ (pack32 n ++ rest)) off = n % 4294967296 := by
  rw [read32_append_right (by omega)]
  simp only [h, Nat.sub_self]
  exact read32_pack32_append n rest

/- ### Claim C4: header parsing probes both index offset/size positions -/

/-- Claim C4.  For every 96-byte buffer with the DBPF magic and major
version 2, `DBPFHeader.from_bytes` succeeds and fills the index size from
the primary field at 68-72 unless it is zero, in which case the alternate
field at 44-48 is used, and symmetrically the index offset from 64-68
with the alternate at 40-44 — both fields prefer whichever stored
position is non-zero, the primary first. -/
theorem header_probes_alternate_fields (data : Bytes) (hlen : data.length = 96)
    (hmagic : data.take 4 = magicDBPF) (hver : read32 data 4 = 2) :
    DBPFHeader.from_bytes data =
      some ⟨magicDBPF, 2, read32 data 8, read32 data 36,
        (if read32 data 64 = 0 then read32 data 40 else read32 data 64),
        (if read32 data 68 = 0 then read32 data 44 else read32 data 68),
        read32 data 32⟩ := by
  unfold DBPFHeader.from_bytes
  rw [hmagic, hver]
  simp [hlen]

/-- Witness for C4: parsing `headerAltBuf` takes the index offset 5 and
index size 7 from the alternate fields. -/
theorem header_probes_alternate_fields_witness :
    DBPFHeader.from_bytes headerAltBuf =
      some ⟨magicDBPF, 2, read32 headerAltBuf 8, read32 headerAltBuf 36,
        (if read32 headerAltBuf 64 = 0 then read32 headerAltBuf 40
         else read32 headerAltBuf 64),
        (if read32 headerAltBuf 68 = 0 then read32 headerAltBuf 44
         else read32 headerAltBuf 68),
        read32 headerAltBuf 32⟩ ∧
      (if read32 headerAltBuf 64 = 0 then read32 headerAltBuf 40
       else read32 headerAltBuf 64) = 5 ∧
      (if read32 headerAltBuf 68 = 0 then read32 headerAltBuf 44
       else read32 headerAltBuf 68) = 7 :=
  ⟨header_probes_alternate_fields headerAltBuf (by decide) (by decide) (by decide),
   by decide, by decide⟩

/- ### Header serialization lemmas (claim C8) -/

theorem setBytes_split {pre v' suf v : Bytes} {off : Nat} (hoff : pre.length = off)
    (hv : v'.length = v.length) :
    setBytes (pre ++ (v' ++ suf)) off v = pre ++ (v ++ suf) := by
  unfold setBytes
  have h1 : (pre ++ (v' ++ suf)).take off = pre := List.take_left' hoff
  have h2 : (pre ++ (v' ++ suf)).drop (off + v.length) = suf := by
    rw [← List.append_assoc]
    exact List.drop_left' (by simp [hoff, hv])
  rw [h1, h2, List.append_assoc]

/-- Normal form of `DBPFHeader.to_bytes` for a 4-byte magic: the exact
96-byte layout it produces.  Bytes 12-35, 40-63 and 72-95 are all zero;
in particular nothing non-zero is ever written at offsets 80-81. -/
theorem to_bytes_eq (h : DBPFHeader) (hm : h.magic.length = 4) :
    h.to_bytes =
      h.magic ++ (pack32 h.major_version ++ (pack32 h.minor_version ++
        (List.replicate 24 0 ++ (pack32 h.index_entry_count ++
        (List.replicate 24 0 ++ (pack32 h.index_offset ++
        (pack32 h.index_size ++ List.replicate 24 0))))))) := by
  simp only [DBPFHeader.to_bytes]
  rw [show (List.replicate 96 (0:Nat)).drop 4 =
        List.replicate 4 0 ++ List.replicate 88 0 by decide,
    setBytes_split hm (by rfl),
    show List.replicate 88 (0:Nat) = List.replicate 4 0 ++ List.replicate 84 0
      by decide,
    ← List.append_assoc h.magic,
    setBytes_split (by simp [hm, pack32]) (by rfl),
    show List.replicate 84 (0:Nat) =
        List.replicate 24 0 ++ (List.replicate 4 0 ++ List.replicate 56 0)
      by decide]
  rw [show (h.magic ++ pack32 h.major_version) ++
        (pack32 h.minor_version ++ (List.replicate 24 0 ++
          (List.replicate 4 0 ++ List.replicate 56 0))) =
      ((h.magic ++ pack32 h.major_version) ++ pack32 h.minor_version ++
        List.replicate 24 0) ++ (List.replicate 4 0 ++ List.replicate 56 0)
    by simp [List.append_assoc]]
  rw [setBytes_split (by simp [hm, pack32]) (by rfl),
    show List.replicate 56 (0:Nat) =
        List.replicate 24 0 ++ (List.replicate 4 0 ++ List.replicate 28 0)
      by decide]
  rw [show ((h.magic ++ pack32 h.major_version) ++ pack32 h.minor_version ++
        List.replicate 24 0) ++ (pack32 h.index_entry_count ++
          (List.replicate 24 0 ++ (List.replicate 4 0 ++ List.replicate 28 0))) =
      (((h.magic ++ pack32 h.major_version) ++ pack32 h.minor_version ++
        List.replicate 24 0) ++ pack32 h.index_entry_count ++
        List.replicate 24 0) ++ (List.replicate 4 0 ++ List.replicate 28 0)
    by simp [List.append_assoc]]
  rw [setBytes_split (by simp [hm, pack32]) (by rfl),
    show List.replicate 28 (0:Nat) = List.replicate 4 0 ++ List.replicate 24 0
      by decide]
  rw [show (((h.magic ++ pack32 h.major_version) ++ pack32 h.minor_version ++
        List.replicate 24 0) ++ pack32 h.index_entry_count ++
        List.replicate 24 0) ++ (pack32 h.index_offset ++
          (List.replicate 4 0 ++ List.replicate 24 0)) =
      ((((h.magic ++ pack32 h.major_version) ++ pack32 h.minor_version ++
        List.replicate 24 0) ++ pack32 h.index_entry_count ++
        List.replicate 24 0) ++ pack32 h.index_offset) ++
        (List.replicate 4 0 ++ List.replicate 24 0)
    by simp [List.append_assoc]]
  rw [setBytes_split (by simp [hm, pack32]) (by rfl)]
  simp [List.append_assoc]

theorem hdrA_len : hdrA.length = 36 := rfl

theorem hdrC_len : hdrC.length = 16 := rfl

theorem hdrD_len : hdrD.length = 28 := rfl

theorem save_header_length (c o s : Nat) : (save_header c o s).length = 96 := by
  simp [save_header, hdrA_len, hdrC_len, hdrD_len, pack32]

theorem sh_decompA (c o s : Nat) :
    save_header c o s =
      hdrA ++ (pack32 c ++ (pack32 0 ++ (pack32 s ++ (hdrC ++ (pack32 o ++ hdrD))))) := by
  simp [save_header, List.append_assoc]

theorem sh_take4 (c o s : Nat) : (save_header c o s).take 4 = magicDBPF := by
  rw [sh_decompA, List.take_append_eq_append_take]
  norm_num [hdrA_len]
  decide

theorem sh_read4 (c o s : Nat) : read32 (save_header c o s) 4 = 2 := by
  rw [sh_decompA, read32_append_left (by norm_num [hdrA_len])]
  decide

theorem sh_read8 (c o s : Nat) : read32 (save_header c o s) 8 = 1 := by
  rw [sh_decompA, read32_append_left (by norm_num [hdrA_len])]
  decide

theorem sh_read32w (c o s : Nat) : read32 (save_header c o s) 32 = 0 := by
  rw [sh_decompA, read32_append_left (by norm_num [hdrA_len])]
  decide

theorem sh_read36 (c o s : Nat) :
    read32 (save_header c o s) 36 = c % 4294967296 := by
  rw [sh_decompA]
  exact read32_pack32_at hdrA_len c _

theorem sh_read40 (c o s : Nat) : read32 (save_header c o s) 40 = 0 := by
  rw [show save_header c o s =
      (hdrA ++ pack32 c) ++ (pack32 0 ++ (pack32 s ++ (hdrC ++ (pack32 o ++ hdrD))))
    by simp [save_header, List.append_assoc]]
  rw [read32_pack32_at (by simp [hdrA_len, pack32_length]) 0]

theorem sh_read44 (c o s : Nat) :
    read32 (save_header c o s) 44 = s % 4294967296 := by
  rw [show save_header c o s =
      ((hdrA ++ pack32 c) ++ pack32 0) ++ (pack32 s ++ (hdrC ++ (pack32 o ++ hdrD)))
    by simp [save_header, List.append_assoc]]
  exact read32_pack32_at (by simp [hdrA_len, pack32_length]) s _

theorem sh_read64 (c o s : Nat) :
    read32 (save_header c o s) 64 = o % 4294967296 := by
  rw [show save_header c o s =
      (((hdrA ++ pack32 c) ++ pack32 0) ++ pack32 s ++ hdrC) ++ (pack32 o ++ hdrD)
    by simp [save_header, List.append_assoc]]
  exact read32_pack32_at (by simp [hdrA_len, hdrC_len, pack32_length]) o _

theorem sh_read68 (c o s : Nat) : read32 (save_header c o s) 68 = 0 := by
  rw [show save_header c o s =
      ((((hdrA ++ pack32 c) ++ pack32 0) ++ pack32 s ++ hdrC) ++ pack32 o) ++ hdrD
    by simp [save_header, List.append_assoc],
    show hdrD = pack32 0 ++ (List.replicate 8 0 ++ ([255, 255] ++ List.replicate 14 0))
      by simp [hdrD, List.append_assoc]]
  rw [read32_pack32_at (by simp [hdrA_len, hdrC_len, pack32_length]) 0]

theorem sh_byte60 (c o s : Nat) : byteAt (save_header c o s) 60 = 3 := by
  rw [show save_header c o s =
      (((hdrA ++ pack32 c) ++ pack32 0) ++ pack32 s) ++ (hdrC ++ (pack32 o ++ hdrD))
    by simp [save_header, List.append_assoc]]
  have hl : ((((hdrA ++ pack32 c) ++ pack32 0) ++ pack32 s)).length = 48 := by
    simp [hdrA_len, pack32_length]
  rw [byteAt_append_right (by rw [hl]; omega), hl]
  norm_num
  rw [byteAt_append_left (by norm_num [hdrC_len])]
  decide

theorem sh_byte80 (c o s : Nat) : byteAt (save_header c o s) 80 = 255 := by
  rw [show save_header c o s =
      ((((hdrA ++ pack32 c) ++ pack32 0) ++ pack32 s ++ hdrC) ++ pack32 o) ++ hdrD
    by simp [save_header, List.append_assoc]]
  have hl : (((((hdrA ++ pack32 c) ++ pack32 0) ++ pack32 s ++ hdrC) ++ pack32 o)).length = 68 := by
    simp [hdrA_len, hdrC_len, pack32_length]
  rw [byteAt_append_right (by rw [hl]; omega), hl]
  norm_num
  decide

theorem sh_byte81 (c o s : Nat) : byteAt (save_header c o s) 81 = 255 := by
  rw [show save_header c o s =
      ((((hdrA ++ pack32 c) ++ pack32 0) ++ pack32 s ++ hdrC) ++ pack32 o) ++ hdrD
    by simp [save_header, List.append_assoc]]
  have hl : (((((hdrA ++ pack32 c) ++ pack32 0) ++ pack32 s ++ hdrC) ++ pack32 o)).length = 68 := by
    simp [hdrA_len, hdrC_len, pack32_length]
  rw [byteAt_append_right (by rw [hl]; omega), hl]
  norm_num
  decide

/-- Parsing the header that `DBPFFile.save` writes recovers version 2.1,
the entry count, and — via the alternate-field probing — the index offset
from the primary slot (64) and the index size from the alternate slot
(44), the primary size slot being zero. -/
theorem from_bytes_save_header (c o s : Nat) (hc : c < 4294967296)
    (ho : o < 4294967296) (hs : s < 4294967296) (ho0 : 0 < o) :
    DBPFHeader.from_bytes (save_header c o s) =
      some ⟨magicDBPF, 2, 1, c, o, s, 0⟩ := by
  unfold DBPFHeader.from_bytes
  rw [sh_take4]
  simp [save_header_length, sh_read4, sh_read8, sh_read32w, sh_read36, sh_read40,
    sh_read44, sh_read64, sh_read68, Nat.mod_eq_of_lt hc, Nat.mod_eq_of_lt ho,
    Nat.mod_eq_of_lt hs, Nat.pos_iff_ne_zero.mp ho0]

/- ### Claim C8: header serialization layout and the offset-80 sentinel -/

theorem to_bytes_flat (h : DBPFHeader) (hm : h.magic.length = 4) :
    h.to_bytes =
      (h.magic ++ pack32 h.major_version ++ pack32 h.minor_version ++
        List.replicate 24 0 ++ pack32 h.index_entry_count ++
        List.replicate 24 0 ++ pack32 h.index_offset ++ pack32 h.index_size) ++
      List.replicate 24 0 := by
  rw [to_bytes_eq h hm]
  simp [List.append_assoc]

/-- Counterexample to claim C8 as stated: serializing a header through
`DBPFHeader.to_bytes` leaves offsets 80 and 81 zero — the 0xFFFF sentinel
byte-pair the claim requires at offset 80 is NOT emitted (it is only
written by `DBPFFile.save`'s separate inline header construction). -/
theorem header_serialize_no_sentinel :
    byteAt (DBPFHeader.to_bytes hdr0) 80 = 0 ∧
      byteAt (DBPFHeader.to_bytes hdr0) 81 = 0 ∧
      ¬(byteAt (DBPFHeader.to_bytes hdr0) 80 = 255 ∧
        byteAt (DBPFHeader.to_bytes hdr0) 81 = 255) := by
  refine ⟨?_, ?_, ?_⟩ <;> decide

/-- Claim C8 amended: both header serializers always emit 96 bytes in the
major-version-2 layout, but they differ beyond that.
`DBPFHeader.to_bytes` zeroes everything it does not write — including
offsets 72-95, so no sentinel appears at offset 80.  The header built
inline by `DBPFFile.save` is the one carrying the 0xFFFF sentinel at
offsets 80-81, and it additionally stores 3 at offset 60 (the index minor
version, a field the spec layout leaves reserved), so not every reserved
field is zero there either. -/
theorem header_serialize_layout (h : DBPFHeader) (c o s : Nat)
    (hm : h.magic.length = 4) :
    h.to_bytes.length = 96 ∧
      h.to_bytes.drop 72 = List.replicate 24 0 ∧
      byteAt h.to_bytes 80 = 0 ∧ byteAt h.to_bytes 81 = 0 ∧
      (save_header c o s).length = 96 ∧
      byteAt (save_header c o s) 80 = 255 ∧
      byteAt (save_header c o s) 81 = 255 ∧
      byteAt (save_header c o s) 60 = 3 := by
  have hx : (h.magic ++ pack32 h.major_version ++ pack32 h.minor_version ++
      List.replicate 24 0 ++ pack32 h.index_entry_count ++
      List.replicate 24 0 ++ pack32 h.index_offset ++ pack32 h.index_size).length
      = 72 := by
    simp [hm, pack32]
  refine ⟨?_, ?_, ?_, ?_, save_header_length c o s, sh_byte80 c o s,
    sh_byte81 c o s, sh_byte60 c o s⟩
  · rw [to_bytes_flat h hm, List.length_append, hx]
    simp
  · rw [to_bytes_flat h hm]
    exact List.drop_left' hx
  · rw [to_bytes_flat h hm, byteAt_append_right (by rw [hx]; omega), hx]
    decide
  · rw [to_bytes_flat h hm, byteAt_append_right (by rw [hx]; omega), hx]
    decide

/-- Witness for the amended C8 at a concrete header and concrete
save-header fields. -/
theorem header_serialize_layout_witness :
    hdr0.to_bytes.length = 96 ∧
      hdr0.to_bytes.drop 72 = List.replicate 24 0 ∧
      byteAt hdr0.to_bytes 80 = 0 ∧ byteAt hdr0.to_bytes 81 = 0 ∧
      (save_header 1 96 32).length = 96 ∧
      byteAt (save_header 1 96 32) 80 = 255 ∧
      byteAt (save_header 1 96 32) 81 = 255 ∧
      byteAt (save_header 1 96 32) 60 = 3 :=
  header_serialize_layout hdr0 1 96 32 (by decide)

/- ### Claim C9: index bounds handling in load -/

/-- Counterexample to claim C9 as stated: on a stream with a valid header
whose declared index offset exceeds the stream length, `load` does not
clamp-and-truncate — it fails (the `ValueError` at the
`index_offset > len(file_data)` check). -/
theorem load_index_offset_not_clamped :
    load zlibNone c9buf = none ∧
      (DBPFHeader.from_bytes (c9buf.take 96)).isSome ∧
      (∀ h, DBPFHeader.from_bytes (c9buf.take 96) = some h →
        c9buf.length < h.index_offset) := by
  refine ⟨by decide, by decide, ?_⟩
  intro h hh
  have : h = ⟨magicDBPF, 2, 0, 0, 200, 0, 0⟩ := by
    have he : DBPFHeader.from_bytes (c9buf.take 96) =
        some ⟨magicDBPF, 2, 0, 0, 200, 0, 0⟩ := by decide
    rw [he] at hh
    exact (Option.some.injEq _ _ ▸ hh).symm
  rw [this]
  decide

/-- Claim C9 amended: for a stream with a valid header whose index offset
is within the stream, `load` succeeds and the index region is clamped to
the stream length — its length is `min index_size (length - offset)`, so
a declared index size overrunning the end is truncated rather than
failing.  A declared index offset beyond the stream length, however, is a
hard load failure (see `load_index_offset_not_clamped`). -/
theorem load_clamps_index_size (z : Bytes → Option Bytes) (fileData : Bytes)
    (h : DBPFHeader) (hz : fileData.take 2 ∉ zlibFileSigs)
    (hlen : 96 ≤ fileData.length)
    (hhdr : DBPFHeader.from_bytes (fileData.take 96) = some h)
    (hoff : h.index_offset ≤ fileData.length) :
    (load z fileData).isSome ∧
      (index_region fileData h.index_offset h.index_size).length =
        min h.index_size (fileData.length - h.index_offset) := by
  constructor
  · unfold load
    rw [if_neg hz]
    simp only [Option.bind_eq_bind, Option.some_bind]
    rw [if_neg (by omega)]
    rw [hhdr]
    simp only [Option.some_bind]
    rw [if_neg (by omega)]
    simp
  · unfold index_region
    by_cases hc : h.index_offset + h.index_size > fileData.length
    · rw [if_pos hc]
      simp only [List.length_take, List.length_drop]
      omega
    · rw [if_neg hc]
      simp only [List.length_take, List.length_drop]

/-- Witness for the amended C9: loading `c9buf2` succeeds and its index
region is clamped from the declared 1000 bytes to the 4 actually
available. -/
theorem load_clamps_index_size_witness :
    (load zlibNone c9buf2).isSome ∧
      (index_region c9buf2 96 1000).length = min 1000 (c9buf2.length - 96) :=
  load_clamps_index_size zlibNone c9buf2 ⟨magicDBPF, 2, 0, 0, 96, 1000, 0⟩
    (by decide) (by decide) (by decide) (by decide)

/- ### Claim C5: the RefPack decoder never raises -/

/-- Claim C5.  For every input whose leading bytes carry a RefPack
signature, `_decompress_refpack` returns a buffer (it never raises: every
byte access inside the loop is guarded, truncated input included); and in
particular the concrete stream `10 FB 00` — truncated in the middle of a
two-byte control word — decodes to an empty buffer, shorter than the
target size of 5, rather than raising. -/
theorem refpack_never_raises :
    (∀ (data : Bytes) (target : Nat), 2 ≤ data.length →
      (data.take 2 = [0x10, 0xFB] ∨ data.take 2 = [0x50, 0xFB] ∨
        data.take 2 = [0x90, 0xFB]) →
      ∃ out, decompress_refpack data target = some out) ∧
    (∃ out, decompress_refpack [0x10, 0xFB, 0x00] 5 = some out ∧
      out.length < 5) := by
  constructor
  · intro data target hlen _
    match data, hlen with
    | b :: rest, _ => exact ⟨_, rfl⟩
  · exact ⟨[], by decide, by decide⟩

/-- Witness for C5 at a concrete signed stream (a 5-byte `50 FB` header
with no body). -/
theorem refpack_never_raises_witness :
    ∃ out, decompress_refpack [0x50, 0xFB, 0, 0, 0] 7 = some out :=
  refpack_never_raises.1 [0x50, 0xFB, 0, 0, 0] 7 (by decide) (by decide)

/- ### Claim C2: merge returns a MergeResult only -/

/-- Counterexample to claim C2 as stated: `merge` does NOT return the
merged Container.  Two merges from different newer containers whose saves
fail return literally identical `MergeResult` values while their merged
in-memory containers differ, so no caller can recover the merged
container from what `merge` returns — it is a local that is dropped. -/
theorem merge_does_not_return_container :
    merge c2newerA [] .newer_base_add_missing none none (some "x") =
      merge c2newerB [] .newer_base_add_missing none none (some "x") ∧
    mergedMain c2newerA []
        (use_older_keys .newer_base_add_missing c2newerA []) none none ≠
      mergedMain c2newerB []
        (use_older_keys .newer_base_add_missing c2newerB []) none none := by
  constructor
  · decide
  · decide

/-- Claim C2 amended: `merge` returns only a `MergeResult`; when saving
the merged output fails, that result has `success = false`,
`output_file = None` and the save error recorded, for every strategy —
the fully built merged container is discarded, not returned. -/
theorem merge_save_failure_reports (newer older : ResMap)
    (strategy : MergeStrategy) (toAdd fromOlder : Option (List ResKey))
    (msg : String) :
    (merge newer older strategy toAdd fromOlder (some msg)).success = false ∧
    (merge newer older strategy toAdd fromOlder (some msg)).output_file = none ∧
    (merge newer older strategy toAdd fromOlder (some msg)).errors =
      ["Fout bij opslaan: " ++ msg] := by
  cases strategy <;> simp [merge]

/- ### Association-list lemmas for the merge loops -/

theorem aLookup_map_subst (k k' : ResKey) (v : Resource) (hne : k' ≠ k) :
    ∀ m : ResMap,
      aLookup k (m.map (fun p => if p.1 = k' then (k', v) else p)) = aLookup k m
  | [] => rfl
  | p :: ps => by
    simp only [List.map_cons]
    by_cases hp : p.1 = k'
    · rw [if_pos hp]
      show aLookup k ((k', v) :: _) = _
      simp only [aLookup]
      rw [if_neg hne, if_neg (by rw [hp]; exact hne)]
      exact aLookup_map_subst k k' v hne ps
    · rw [if_neg hp]
      simp only [aLookup]
      by_cases hpk : p.1 = k
      · rw [if_pos hpk, if_pos hpk]
      · rw [if_neg hpk, if_neg hpk]
        exact aLookup_map_subst k k' v hne ps

theorem aLookup_append (k : ResKey) :
    ∀ m1 m2 : ResMap,
      aLookup k (m1 ++ m2) =
        match aLookup k m1 with
        | some r => some r
        | none => aLookup k m2
  | [], _ => rfl
  | p :: ps, m2 => by
    simp only [List.cons_append, aLookup]
    by_cases hp : p.1 = k
    · rw [if_pos hp, if_pos hp]
    · rw [if_neg hp, if_neg hp]
      exact aLookup_append k ps m2

theorem aLookup_dictInsert_ne (m : ResMap) (k k' : ResKey) (v : Resource)
    (hne : k' ≠ k) : aLookup k (dictInsert m k' v) = aLookup k m := by
  unfold dictInsert
  split
  · exact aLookup_map_subst k k' v hne m
  · rw [aLookup_append]
    cases hm : aLookup k m
    · simp [aLookup, hne]
    · simp

theorem dictInsert_fresh (m : ResMap) (k : ResKey) (v : Resource)
    (h : aLookup k m = none) : dictInsert m k v = m ++ [(k, v)] := by
  unfold dictInsert
  rw [h]
  rfl

theorem aLookupP_of_aLookup (k : ResKey) (r : Resource) :
    ∀ l : ResMap, aLookup k l = some r → aLookupP k l = some (k, r)
  | [], h => by simp [aLookup] at h
  | q :: qs, h => by
    simp only [aLookup] at h
    simp only [aLookupP]
    by_cases hq : q.1 = k
    · rw [if_pos hq] at h ⊢
      obtain ⟨q1, q2⟩ := q
      simp only at hq
      simp only [Option.some.injEq] at h
      rw [hq, h]
    · rw [if_neg hq] at h ⊢
      exact aLookupP_of_aLookup k r qs h

theorem aLookup_foldl_ins (g : ResKey × Resource → Resource) (k : ResKey) :
    ∀ (l m : ResMap), (l.map Prod.fst).Nodup →
      (∀ p ∈ l, aLookup p.1 m = none) →
      aLookup k (l.foldl (fun acc p => dictInsert acc p.1 (g p)) m) =
        match aLookup k m with
        | some r => some r
        | none => (aLookupP k l).map g
  | [], m, _, _ => by
    simp only [List.foldl_nil, aLookupP, Option.map_none']
    cases aLookup k m <;> rfl
  | p :: ps, m, hnd, hm => by
    simp only [List.foldl_cons]
    rw [dictInsert_fresh m p.1 (g p) (hm p (List.mem_cons_self p ps))]
    have hnd' : (ps.map Prod.fst).Nodup := (List.nodup_cons.mp hnd).2
    have hpnot : p.1 ∉ ps.map Prod.fst := (List.nodup_cons.mp hnd).1
    have hm' : ∀ q ∈ ps, aLookup q.1 (m ++ [(p.1, g p)]) = none := by
      intro q hq
      rw [aLookup_append, hm q (List.mem_cons_of_mem p hq)]
      have hqp : p.1 ≠ q.1 := by
        intro he
        exact hpnot (he ▸ List.mem_map_of_mem Prod.fst hq)
      simp [aLookup, hqp]
    rw [aLookup_foldl_ins g k ps (m ++ [(p.1, g p)]) hnd' hm']
    rw [aLookup_append]
    cases hkm : aLookup k m
    · by_cases hpk : p.1 = k
      · simp only [aLookup, if_pos hpk, aLookupP, Option.map_some']
      · simp only [aLookup, if_neg hpk, aLookupP]
    · rfl

theorem aLookup_foldl_skip (k : ResKey) :
    ∀ (l m : ResMap), (∀ p ∈ l, p.1 ≠ k) →
      aLookup k (l.foldl (fun acc p => dictInsert acc p.1 p.2) m) = aLookup k m
  | [], _, _ => rfl
  | p :: ps, m, h => by
    simp only [List.foldl_cons]
    rw [aLookup_foldl_skip k ps _ (fun q hq => h q (List.mem_cons_of_mem p hq))]
    exact aLookup_dictInsert_ne m k p.1 p.2 (h p (List.mem_cons_self p ps))

/-- Per-key content of the merged container on the main path: for a key
present in the newer container (keys unique), the merged value is exactly
`mergeChoice` — the older version when flagged and present, else the
newer version; the missing-resource pass never touches keys of newer. -/
theorem aLookup_mergedMain (newer older : ResMap) (uok : List ResKey)
    (fromOlder toAdd : Option (List ResKey)) (k : ResKey) (rN : Resource)
    (hnd : (newer.map Prod.fst).Nodup) (hk : aLookup k newer = some rN) :
    aLookup k (mergedMain newer older uok fromOlder toAdd) =
      some (mergeChoice older uok fromOlder (k, rN)) := by
  unfold mergedMain
  have hskip : ∀ p ∈ toAddList newer older toAdd, p.1 ≠ k := by
    intro p hp he
    have hmem : p ∈ onlyInOlder newer older := by
      unfold toAddList at hp
      cases toAdd with
      | none => exact hp
      | some s => exact List.mem_of_mem_filter hp
    have : (aLookup p.1 newer).isNone := by
      have := List.of_mem_filter hmem
      simpa using this
    rw [he, hk] at this
    simp at this
  rw [aLookup_foldl_skip k _ _ hskip]
  have hbody : (fun (m : ResMap) (p : ResKey × Resource) =>
      if useOlderFor fromOlder uok p.1 then
        match aLookup p.1 older with
        | some r => dictInsert m p.1 r
        | none => dictInsert m p.1 p.2
      else dictInsert m p.1 p.2) =
      fun m p => dictInsert m p.1 (mergeChoice older uok fromOlder p) := by
    funext m p
    unfold mergeChoice
    by_cases hu : useOlderFor fromOlder uok p.1
    · rw [if_pos hu, if_pos hu]
      cases aLookup p.1 older <;> rfl
    · rw [if_neg hu, if_neg hu]
  rw [hbody]
  rw [aLookup_foldl_ins (mergeChoice older uok fromOlder) k newer []
    hnd (fun p _ => rfl)]
  rw [aLookupP_of_aLookup k rN newer hk]
  rfl

/- ### Membership in the strategy key sets -/

theorem differentPairs_cons_none {p : ResKey × Resource} {older : ResMap}
    (ps : List (ResKey × Resource)) (hl : aLookup p.1 older = none) :
    differentPairs (p :: ps) older = differentPairs ps older := by
  simp only [differentPairs, List.filterMap_cons, hl]

theorem differentPairs_cons_same {p : ResKey × Resource} {older : ResMap}
    {r : Resource} (ps : List (ResKey × Resource))
    (hl : aLookup p.1 older = some r) (hd : p.2.data = r.data) :
    differentPairs (p :: ps) older = differentPairs ps older := by
  simp only [differentPairs, List.filterMap_cons, hl]
  rw [if_pos hd]

theorem differentPairs_cons_diff {p : ResKey × Resource} {older : ResMap}
    {r : Resource} (ps : List (ResKey × Resource))
    (hl : aLookup p.1 older = some r) (hd : p.2.data ≠ r.data) :
    differentPairs (p :: ps) older = (p.1, p.2, r) :: differentPairs ps older := by
  simp only [differentPairs, List.filterMap_cons, hl]
  rw [if_neg hd]

theorem keys_filtered_diff_sub (cond : ResKey × Resource × Resource → Bool)
    (older : ResMap) (k : ResKey) :
    ∀ newer : ResMap,
      k ∈ (((differentPairs newer older).filter cond).map Prod.fst) →
      k ∈ newer.map Prod.fst
  | [], h => by simp [differentPairs] at h
  | p :: ps, h => by
    simp only [List.map_cons, List.mem_cons]
    cases hl : aLookup p.1 older with
    | none =>
      rw [differentPairs_cons_none ps hl] at h
      exact Or.inr (keys_filtered_diff_sub cond older k ps h)
    | some r =>
      by_cases hd : p.2.data = r.data
      · rw [differentPairs_cons_same ps hl hd] at h
        exact Or.inr (keys_filtered_diff_sub cond older k ps h)
      · rw [differentPairs_cons_diff ps hl hd] at h
        simp only [List.filter_cons] at h
        by_cases hc : cond (p.1, p.2, r)
        · rw [if_pos hc] at h
          simp only [List.map_cons, List.mem_cons] at h
          cases h with
          | inl he => exact Or.inl he
          | inr ht => exact Or.inr (keys_filtered_diff_sub cond older k ps ht)
        · rw [if_neg hc] at h
          exact Or.inr (keys_filtered_diff_sub cond older k ps h)

theorem mem_filtered_diff (cond : ResKey × Resource × Resource → Bool)
    (older : ResMap) (k : ResKey) (rN rO : Resource) :
    ∀ newer : ResMap, (newer.map Prod.fst).Nodup →
      aLookup k newer = some rN → aLookup k older = some rO →
      (k ∈ (((differentPairs newer older).filter cond).map Prod.fst) ↔
        (rN.data ≠ rO.data ∧ cond (k, rN, rO) = true))
  | [], _, hk, _ => by simp [aLookup] at hk
  | p :: ps, hnd, hk, hO => by
    have hnd' : (ps.map Prod.fst).Nodup := (List.nodup_cons.mp hnd).2
    have hpnot : p.1 ∉ ps.map Prod.fst := (List.nodup_cons.mp hnd).1
    simp only [aLookup] at hk
    by_cases hpk : p.1 = k
    · rw [if_pos hpk] at hk
      simp only [Option.some.injEq] at hk
      have hknot : k ∉ (((differentPairs ps older).filter cond).map Prod.fst) := by
        intro hmem
        exact hpnot (hpk ▸ keys_filtered_diff_sub cond older k ps hmem)
      have hl : aLookup p.1 older = some rO := by rw [hpk]; exact hO
      by_cases hd : rN.data = rO.data
      · rw [differentPairs_cons_same ps hl (by rw [hk, hd])]
        constructor
        · intro hmem
          exact absurd hmem hknot
        · intro hcontr
          exact absurd hd hcontr.1
      · rw [differentPairs_cons_diff ps hl (by rw [hk]; exact hd)]
        simp only [List.filter_cons]
        by_cases hc : cond (p.1, p.2, rO)
        · rw [if_pos hc]
          simp only [List.map_cons, List.mem_cons]
          constructor
          · intro _
            refine ⟨hd, ?_⟩
            rw [← hpk, ← hk]
            exact hc
          · intro _
            exact Or.inl hpk.symm
        · rw [if_neg hc]
          constructor
          · intro hmem
            exact absurd hmem hknot
          · intro hcontr
            refine absurd ?_ hc
            rw [hpk, hk]
            exact hcontr.2
    · rw [if_neg hpk] at hk
      have ih := mem_filtered_diff cond older k rN rO ps hnd' hk hO
      cases hl : aLookup p.1 older with
      | none =>
        rw [differentPairs_cons_none ps hl]
        exact ih
      | some r =>
        by_cases hd : p.2.data = r.data
        · rw [differentPairs_cons_same ps hl hd]
          exact ih
        · rw [differentPairs_cons_diff ps hl hd]
          simp only [List.filter_cons]
          by_cases hc : cond (p.1, p.2, r)
          · rw [if_pos hc]
            simp only [List.map_cons, List.mem_cons]
            constructor
            · intro h
              cases h with
              | inl he => exact absurd he.symm hpk
              | inr ht => exact ih.mp ht
            · intro h
              exact Or.inr (ih.mpr h)
          · rw [if_neg hc]
            exact ih

/- ### Claim C7: PreferLarger takes the larger version -/

/-- Claim C7.  Under PREFER_LARGER (no explicit overrides), for every key
present in both containers the merged payload is the older version
exactly when it is strictly larger than the newer one, and so the merged
payload size is the maximum of the two input sizes. -/
theorem prefer_larger_takes_max (newer older : ResMap) (k : ResKey)
    (rN rO : Resource) (hnd : (newer.map Prod.fst).Nodup)
    (hkN : aLookup k newer = some rN) (hkO : aLookup k older = some rO) :
    aLookup k (mergedMain newer older
        (use_older_keys .prefer_larger newer older) none none) =
      some (if rN.data.length < rO.data.length then rO else rN) ∧
    (aLookup k (mergedMain newer older
        (use_older_keys .prefer_larger newer older) none none)).map
        (fun r => r.data.length) =
      some (max rN.data.length rO.data.length) := by
  have hm := aLookup_mergedMain newer older
    (use_older_keys .prefer_larger newer older) none none k rN hnd hkN
  have hmem : (k ∈ use_older_keys .prefer_larger newer older) ↔
      (rN.data ≠ rO.data ∧ rN.data.length < rO.data.length) := by
    unfold use_older_keys get_larger_resources
    have := mem_filtered_diff
      (fun q => decide (q.2.1.data.length < q.2.2.data.length))
      older k rN rO newer hnd hkN hkO
    simpa using this
  have hchoice : mergeChoice older (use_older_keys .prefer_larger newer older)
      none (k, rN) = if rN.data.length < rO.data.length then rO else rN := by
    unfold mergeChoice useOlderFor
    by_cases hlen : rN.data.length < rO.data.length
    · have hne : rN.data ≠ rO.data := by
        intro he
        rw [he] at hlen
        omega
      have hink : k ∈ use_older_keys .prefer_larger newer older :=
        hmem.mpr ⟨hne, hlen⟩
      simp [hink, hkO, if_pos hlen]
    · have hknot : k ∉ use_older_keys .prefer_larger newer older := by
        intro hink
        exact hlen (hmem.mp hink).2
      simp [hknot, if_neg hlen]
  refine ⟨hm.trans (congrArg some hchoice), ?_⟩
  rw [hm, hchoice]
  by_cases hlen : rN.data.length < rO.data.length
  · rw [if_pos hlen]
    simp [Nat.max_eq_right (Nat.le_of_lt hlen)]
  · rw [if_neg hlen]
    simp [Nat.max_eq_left (Nat.le_of_not_lt hlen)]

/-- Witness for C7: the older 3-byte version replaces the newer 2-byte
one and the merged size is max 2 3 = 3. -/
theorem prefer_larger_takes_max_witness :
    aLookup (1, 0, 0) (mergedMain c7newer c7older
        (use_older_keys .prefer_larger c7newer c7older) none none) =
      some (if ([1, 2] : Bytes).length < ([3, 4, 5] : Bytes).length
            then (⟨dummyEntry, [3, 4, 5]⟩ : Resource)
            else ⟨dummyEntry, [1, 2]⟩) ∧
    (aLookup (1, 0, 0) (mergedMain c7newer c7older
        (use_older_keys .prefer_larger c7newer c7older) none none)).map
        (fun r => r.data.length) =
      some (max ([1, 2] : Bytes).length ([3, 4, 5] : Bytes).length) :=
  prefer_larger_takes_max c7newer c7older (1, 0, 0) ⟨dummyEntry, [1, 2]⟩
    ⟨dummyEntry, [3, 4, 5]⟩ (by decide) (by decide) (by decide)

/- ### Claim C3: the SmartMerge substitution condition -/

/-- Counterexample to claim C3 as stated: key of type 0xE882D22F (Lot, in
the world allowlist) with a 100-byte newer payload and a 500-byte older
payload satisfies the claim's condition (newer < 2000 and older ≥ 5x),
yet `_detect_empty_resources` does not flag it (for world types other
than 0x6 the code requires newer < 100), so SMART_MERGE keeps the newer
version. -/
theorem smart_merge_claim_mismatch :
    smartMergeSpecCond 0xE882D22F 100 500 = true ∧
    detect_empty_resources c3newer c3older = [] ∧
    aLookup lotKey (mergedMain c3newer c3older
        (use_older_keys .smart_merge c3newer c3older) none none) =
      some ⟨dummyEntry, List.replicate 100 1⟩ ∧
    (List.replicate 100 (1 : Nat)) ≠ List.replicate 500 2 := by
  refine ⟨by decide, by decide, by decide, by decide⟩

/-- Claim C3 amended: under SMART_MERGE a conflicting key is substituted
by the older version exactly when `_detect_empty_resources` flags it:
for type 0x6, older > 10x newer, or newer < 2000 bytes and older > 5x
newer; for the other world-allowlist types (Lot, Zone, ObjectData),
newer < 100 bytes and older > 5x newer; and for keys of any OTHER type,
older > 1000 bytes and newer < 5 percent of older (each comparison
strict). -/
theorem smart_merge_substitutes (newer older : ResMap) (k : ResKey)
    (rN rO : Resource) (hnd : (newer.map Prod.fst).Nodup)
    (hkN : aLookup k newer = some rN) (hkO : aLookup k older = some rO)
    (hdiff : rN.data ≠ rO.data) :
    aLookup k (mergedMain newer older
        (use_older_keys .smart_merge newer older) none none) =
      some (if detect_empty_cond k.1 rN.data.length rO.data.length
            then rO else rN) := by
  have hm := aLookup_mergedMain newer older
    (use_older_keys .smart_merge newer older) none none k rN hnd hkN
  have hmem : (k ∈ use_older_keys .smart_merge newer older) ↔
      (rN.data ≠ rO.data ∧
        detect_empty_cond k.1 rN.data.length rO.data.length = true) := by
    unfold use_older_keys detect_empty_resources
    exact mem_filtered_diff
      (fun q => detect_empty_cond q.1.1 q.2.1.data.length q.2.2.data.length)
      older k rN rO newer hnd hkN hkO
  have hchoice : mergeChoice older (use_older_keys .smart_merge newer older)
      none (k, rN) =
      if detect_empty_cond k.1 rN.data.length rO.data.length then rO else rN := by
    unfold mergeChoice useOlderFor
    by_cases hc : detect_empty_cond k.1 rN.data.length rO.data.length = true
    · have hink : k ∈ use_older_keys .smart_merge newer older :=
        hmem.mpr ⟨hdiff, hc⟩
      simp [hink, hkO, hc]
    · have hknot : k ∉ use_older_keys .smart_merge newer older := by
        intro hink
        exact hc (hmem.mp hink).2
      have hc' : detect_empty_cond k.1 rN.data.length rO.data.length = false :=
        Bool.eq_false_iff.mpr hc
      simp [hknot, hc']
  exact hm.trans (congrArg some hchoice)

/-- Witness for the amended C3: a type-6 key whose older version is 20x
larger is substituted by the older version. -/
theorem smart_merge_substitutes_witness :
    aLookup (6, 0, 9) (mergedMain c3wNewer c3wOlder
        (use_older_keys .smart_merge c3wNewer c3wOlder) none none) =
      some (if detect_empty_cond 6 ([1] : Bytes).length
                (List.replicate 20 (2 : Nat)).length
            then (⟨dummyEntry, List.replicate 20 2⟩ : Resource)
            else ⟨dummyEntry, [1]⟩) :=
  smart_merge_substitutes c3wNewer c3wOlder (6, 0, 9) ⟨dummyEntry, [1]⟩
    ⟨dummyEntry, List.replicate 20 2⟩ (by decide) (by decide) (by decide)
    (by decide)


/- ### Bitwise lemmas for the index codec -/

theorem lor_shift32 (a b : Nat) (hb : b < 4294967296) :
    Nat.lor (a <<< 32) b = a * 4294967296 + b := by
  have h1 : a <<< 32 = a * 4294967296 := by
    rw [Nat.shiftLeft_eq]
  have h2 : (2 : Nat) ^ 32 = 4294967296 := by norm_num
  have h3 := @Nat.mul_add_lt_is_or 32 b (by rw [h2]; exact hb) a
  rw [h2] at h3
  rw [h1, Nat.mul_comm a 4294967296]
  exact h3.symm

theorem and_top_of_lt (fs : Nat) (h : fs < 2147483648) :
    fs &&& 2147483648 = 0 := by
  have h2 : (2147483648 : Nat) = 2 ^ 31 := by norm_num
  rw [h2, Nat.and_two_pow, Nat.testBit_lt_two_pow (by rw [← h2]; exact h)]
  simp

theorem and_mask_of_lt (fs : Nat) (h : fs < 2147483648) :
    fs &&& 2147483647 = fs := by
  have h2 : (2147483647 : Nat) = 2 ^ 31 - 1 := by norm_num
  rw [h2, Nat.and_pow_two_sub_one_eq_mod]
  exact Nat.mod_eq_of_lt (by norm_num at h ⊢; exact h)

theorem or_top_and_top (fs : Nat) (h : fs < 2147483648) :
    (fs ||| 2147483648) &&& 2147483648 = 2147483648 := by
  rw [Nat.and_distrib_right, and_top_of_lt fs h, Nat.and_self]
  simp

theorem or_top_and_mask (fs : Nat) (h : fs < 2147483648) :
    (fs ||| 2147483648) &&& 2147483647 = fs := by
  rw [Nat.and_distrib_right, and_mask_of_lt fs h]
  have h2 : (2147483648 : Nat) &&& 2147483647 = 0 := by decide
  rw [h2]
  exact Nat.or_zero fs

theorem inst_hi_lt (i : Nat) (h : i < 18446744073709551616) :
    i >>> 32 < 4294967296 := by
  rw [Nat.shiftRight_eq_div_pow]
  norm_num
  omega

theorem inst_recombine (i : Nat) (h : i < 18446744073709551616) :
    Nat.lor ((i >>> 32) <<< 32) (i &&& 4294967295) = i := by
  have hm : i &&& 4294967295 = i % 4294967296 := by
    have h2 : (4294967295 : Nat) = 2 ^ 32 - 1 := by norm_num
    rw [h2, Nat.and_pow_two_sub_one_eq_mod]
  rw [hm, lor_shift32 _ _ (Nat.mod_lt _ (by norm_num))]
  rw [Nat.shiftRight_eq_div_pow]
  norm_num
  omega

theorem encodeEntry_length (e : IndexEntry) :
    (encodeEntry e).length = if e.compressed then 32 else 28 := by
  cases hc : e.compressed <;> simp [encodeEntry, pack32, hc]

theorem safeUnpack_pos {data : Bytes} {o : Nat} (h : o + 4 ≤ data.length) :
    safeUnpack data o = some (read32 data o, o + 4) := by
  unfold safeUnpack
  rw [if_pos h]

theorem safeUnpack_neg {data : Bytes} {o : Nat} (h : data.length < o + 4) :
    safeUnpack data o = none := by
  unfold safeUnpack
  rw [if_neg (by omega)]

theorem encodeEntry_words (e : IndexEntry) :
    encodeEntry e = (entryWords e).flatMap pack32 := by
  cases hc : e.compressed <;>
    simp [encodeEntry, entryWords, hc, List.append_assoc]

theorem safeUnpack_pack32 {pre : Bytes} {off : Nat} (h : pre.length = off)
    (n : Nat) (rest : Bytes) :
    safeUnpack (pre ++ (pack32 n ++ rest)) off =
      some (n % 4294967296, off + 4) := by
  have hl : (pre ++ (pack32 n ++ rest)).length = off + (4 + rest.length) := by
    simp [pack32, h]
    omega
  rw [safeUnpack_pos (by omega), read32_pack32_at h n rest]

theorem safeUnpack_words :
    ∀ (ws : List Nat) (pre suf : Bytes) (j : Nat), j < ws.length →
      safeUnpack (pre ++ (ws.flatMap pack32 ++ suf)) (pre.length + 4 * j) =
        some (ws.getD j 0 % 4294967296, pre.length + 4 * j + 4)
  | [], _, _, j, hj => by simp at hj
  | w :: ws, pre, suf, 0, _ => by
    simp only [List.flatMap_cons, List.getD_cons_zero, Nat.mul_zero, Nat.add_zero]
    rw [List.append_assoc]
    exact safeUnpack_pack32 rfl w _
  | w :: ws, pre, suf, j + 1, hj => by
    simp only [List.flatMap_cons, List.getD_cons_succ]
    have h1 : pre ++ (pack32 w ++ ws.flatMap pack32 ++ suf) =
        (pre ++ pack32 w) ++ (ws.flatMap pack32 ++ suf) := by
      simp [List.append_assoc]
    have h2 : pre.length + 4 * (j + 1) = (pre ++ pack32 w).length + 4 * j := by
      simp [pack32]
      omega
    rw [h1, h2]
    exact safeUnpack_words ws (pre ++ pack32 w) suf j (by simpa using hj)

/-- Decoding one entry that `_build_index` encoded, at its exact offset,
recovers the entry and advances by its encoded size. -/
theorem parseOneEntry_encode (pre suf : Bytes) (e : IndexEntry)
    (hwf : entryWF e) :
    parseOneEntry (pre ++ (encodeEntry e ++ suf)) none none none pre.length =
      some (e, pre.length + (encodeEntry e).length) := by
  obtain ⟨ht, hg, hi, ho, hf, hm⟩ := hwf
  obtain ⟨t, g, ii, eoff, fs, ms, cp⟩ := e
  simp only at ht hg hi ho hf hm
  have hiLo : ii &&& 4294967295 = ii % 4294967296 := by
    rw [show (4294967295 : Nat) = 2 ^ 32 - 1 by norm_num,
      Nat.and_pow_two_sub_one_eq_mod]
  cases cp with
  | false =>
    rw [encodeEntry_words]
    have hws : entryWords ⟨t, g, ii, eoff, fs, ms, false⟩ =
        [t, g, ii >>> 32, ii &&& 4294967295, eoff, fs, ms] := by
      simp [entryWords]
    rw [hws]
    have hlen : (([t, g, ii >>> 32, ii &&& 4294967295, eoff, fs, ms] :
        List Nat).flatMap pack32).length = 28 := by
      simp [pack32]
    rw [hlen]
    have r0 := safeUnpack_words [t, g, ii >>> 32, ii &&& 4294967295, eoff, fs, ms]
      pre suf 0 (by norm_num)
    have r1 := safeUnpack_words [t, g, ii >>> 32, ii &&& 4294967295, eoff, fs, ms]
      pre suf 1 (by norm_num)
    have r2 := safeUnpack_words [t, g, ii >>> 32, ii &&& 4294967295, eoff, fs, ms]
      pre suf 2 (by norm_num)
    have r3 := safeUnpack_words [t, g, ii >>> 32, ii &&& 4294967295, eoff, fs, ms]
      pre suf 3 (by norm_num)
    have r4 := safeUnpack_words [t, g, ii >>> 32, ii &&& 4294967295, eoff, fs, ms]
      pre suf 4 (by norm_num)
    have r5 := safeUnpack_words [t, g, ii >>> 32, ii &&& 4294967295, eoff, fs, ms]
      pre suf 5 (by norm_num)
    have r6 := safeUnpack_words [t, g, ii >>> 32, ii &&& 4294967295, eoff, fs, ms]
      pre suf 6 (by norm_num)
    norm_num [Nat.mod_eq_of_lt ht, Nat.mod_eq_of_lt hg,
      Nat.mod_eq_of_lt (inst_hi_lt ii hi),
      Nat.mod_eq_of_lt (hiLo ▸ Nat.mod_lt ii (by norm_num) :
        ii &&& 4294967295 < 4294967296),
      Nat.mod_eq_of_lt ho, Nat.mod_eq_of_lt (by omega : fs < 4294967296),
      Nat.mod_eq_of_lt (by omega : ms < 4294967296),
      Nat.add_assoc] at r0 r1 r2 r3 r4 r5 r6
    simp only [parseOneEntry, readField, List.flatMap_cons, List.flatMap_nil,
      List.append_assoc, List.append_nil, r0, r1, r2, r3, r4, r5, r6,
      Option.bind_eq_bind, Option.some_bind]
    rw [and_top_of_lt fs hf, and_mask_of_lt fs hf]
    simp only [bne_self_eq_false]
    norm_num [inst_recombine ii hi]
  | true =>
    rw [encodeEntry_words]
    have hws : entryWords ⟨t, g, ii, eoff, fs, ms, true⟩ =
        [t, g, ii >>> 32, ii &&& 4294967295, eoff, fs ||| 2147483648, ms, fs] := by
      simp [entryWords]
    rw [hws]
    have hlen : (([t, g, ii >>> 32, ii &&& 4294967295, eoff, fs ||| 2147483648,
        ms, fs] : List Nat).flatMap pack32).length = 32 := by
      simp [pack32]
    rw [hlen]
    have hfsr : fs ||| 2147483648 < 4294967296 := by
      have := @Nat.or_lt_two_pow fs 2147483648 32
        (by norm_num; omega) (by norm_num)
      norm_num at this
      exact this
    have r0 := safeUnpack_words
      [t, g, ii >>> 32, ii &&& 4294967295, eoff, fs ||| 2147483648, ms, fs]
      pre suf 0 (by norm_num)
    have r1 := safeUnpack_words
      [t, g, ii >>> 32, ii &&& 4294967295, eoff, fs ||| 2147483648, ms, fs]
      pre suf 1 (by norm_num)
    have r2 := safeUnpack_words
      [t, g, ii >>> 32, ii &&& 4294967295, eoff, fs ||| 2147483648, ms, fs]
      pre suf 2 (by norm_num)
    have r3 := safeUnpack_words
      [t, g, ii >>> 32, ii &&& 4294967295, eoff, fs ||| 2147483648, ms, fs]
      pre suf 3 (by norm_num)
    have r4 := safeUnpack_words
      [t, g, ii >>> 32, ii &&& 4294967295, eoff, fs ||| 2147483648, ms, fs]
      pre suf 4 (by norm_num)
    have r5 := safeUnpack_words
      [t, g, ii >>> 32, ii &&& 4294967295, eoff, fs ||| 2147483648, ms, fs]
      pre suf 5 (by norm_num)
    have r6 := safeUnpack_words
      [t, g, ii >>> 32, ii &&& 4294967295, eoff, fs ||| 2147483648, ms, fs]
      pre suf 6 (by norm_num)
    have r7 := safeUnpack_words
      [t, g, ii >>> 32, ii &&& 4294967295, eoff, fs ||| 2147483648, ms, fs]
      pre suf 7 (by norm_num)
    norm_num [Nat.mod_eq_of_lt ht, Nat.mod_eq_of_lt hg,
      Nat.mod_eq_of_lt (inst_hi_lt ii hi),
      Nat.mod_eq_of_lt (hiLo ▸ Nat.mod_lt ii (by norm_num) :
        ii &&& 4294967295 < 4294967296),
      Nat.mod_eq_of_lt ho, Nat.mod_eq_of_lt hfsr,
      Nat.mod_eq_of_lt (by omega : fs < 4294967296),
      Nat.mod_eq_of_lt (by omega : ms < 4294967296),
      Nat.add_assoc] at r0 r1 r2 r3 r4 r5 r6 r7
    simp only [parseOneEntry, readField, List.flatMap_cons, List.flatMap_nil,
      List.append_assoc, List.append_nil, r0, r1, r2, r3, r4, r5, r6, r7,
      Option.bind_eq_bind, Option.some_bind]
    rw [or_top_and_top fs hf, or_top_and_mask fs hf]
    norm_num [inst_recombine ii hi]

/-- Decoding the full encoded entry list from its exact position yields
the entries back, whatever follows. -/
theorem parseEntriesLoop_encode :
    ∀ (es : List IndexEntry) (pre suf : Bytes), (∀ e ∈ es, entryWF e) →
      parseEntriesLoop (pre ++ (es.flatMap encodeEntry ++ suf)) none none none
        es.length pre.length = es
  | [], _, _, _ => rfl
  | e :: es, pre, suf, hwf => by
    have hwfe := hwf e (List.mem_cons_self e es)
    have hwfs : ∀ x ∈ es, entryWF x :=
      fun x hx => hwf x (List.mem_cons_of_mem e hx)
    simp only [List.flatMap_cons, List.length_cons, List.append_assoc]
    simp only [parseEntriesLoop]
    rw [parseOneEntry_encode pre _ e hwfe]
    have hdata : pre ++ (encodeEntry e ++ (es.flatMap encodeEntry ++ suf)) =
        (pre ++ encodeEntry e) ++ (es.flatMap encodeEntry ++ suf) := by
      simp [List.append_assoc]
    have hpre : pre.length + (encodeEntry e).length =
        (pre ++ encodeEntry e).length := by simp
    rw [hdata, hpre]
    show e :: parseEntriesLoop ((pre ++ encodeEntry e) ++
        (es.flatMap encodeEntry ++ suf)) none none none es.length
        (pre ++ encodeEntry e).length = e :: es
    rw [parseEntriesLoop_encode es (pre ++ encodeEntry e) suf hwfs]

/-- An entry decode fails when fewer than 28 bytes remain. -/
theorem parseOneEntry_short (data : Bytes) (off : Nat)
    (h : data.length < off + 28) :
    parseOneEntry data none none none off = none := by
  simp only [parseOneEntry, readField]
  by_cases c0 : off + 4 ≤ data.length
  case neg =>
    rw [safeUnpack_neg (by omega)]
    rfl
  case pos =>
  rw [safeUnpack_pos c0]
  simp only [Option.bind_eq_bind, Option.some_bind]
  by_cases c1 : off + 4 + 4 ≤ data.length
  case neg =>
    rw [safeUnpack_neg (by omega)]
    rfl
  case pos =>
  rw [safeUnpack_pos c1]
  simp only [Option.some_bind]
  by_cases c2 : off + 4 + 4 + 4 ≤ data.length
  case neg =>
    rw [safeUnpack_neg (by omega)]
    rfl
  case pos =>
  rw [safeUnpack_pos c2]
  simp only [Option.some_bind]
  by_cases c3 : off + 4 + 4 + 4 + 4 ≤ data.length
  case neg =>
    rw [safeUnpack_neg (by omega)]
    rfl
  case pos =>
  rw [safeUnpack_pos c3]
  simp only [Option.some_bind]
  by_cases c4 : off + 4 + 4 + 4 + 4 + 4 ≤ data.length
  case neg =>
    rw [safeUnpack_neg (by omega)]
    rfl
  case pos =>
  rw [safeUnpack_pos c4]
  simp only [Option.some_bind]
  by_cases c5 : off + 4 + 4 + 4 + 4 + 4 + 4 ≤ data.length
  case neg =>
    rw [safeUnpack_neg (by omega)]
    rfl
  case pos =>
  rw [safeUnpack_pos c5]
  simp only [Option.some_bind]
  rw [safeUnpack_neg (by omega)]
  rfl

theorem byteAt_take {l : Bytes} {m i : Nat} (h : i < m) :
    byteAt (l.take m) i = byteAt l i := by
  simp [byteAt, List.getElem?_take_of_lt h]

theorem read32_take {l : Bytes} {m off : Nat} (h : off + 4 ≤ m) :
    read32 (l.take m) off = read32 l off := by
  unfold read32
  rw [byteAt_take (by omega), byteAt_take (by omega), byteAt_take (by omega),
    byteAt_take (by omega)]

/-- The size word (with its compression top bit) of an encoded compressed
entry sits at offset +20. -/
theorem read32_enc_fsr (pre suf : Bytes) (e : IndexEntry) (hwf : entryWF e)
    (hc : e.compressed = true) :
    read32 (pre ++ (encodeEntry e ++ suf)) (pre.length + 20) =
      e.file_size ||| 2147483648 := by
  obtain ⟨ht, hg, hi, ho, hf, hm⟩ := hwf
  obtain ⟨t, g, ii, eoff, fs, ms, cp⟩ := e
  simp only at ht hg hi ho hf hm hc
  subst hc
  have hd : pre ++ (encodeEntry ⟨t, g, ii, eoff, fs, ms, true⟩ ++ suf) =
      (pre ++ pack32 t ++ pack32 g ++ pack32 (ii >>> 32) ++
        pack32 (ii &&& 4294967295) ++ pack32 eoff) ++
        (pack32 (fs ||| 2147483648) ++ (pack32 ms ++ (pack32 fs ++ suf))) := by
    simp [encodeEntry, List.append_assoc]
  rw [hd, read32_pack32_at (by simp [pack32]) _ _]
  have hfsr : fs ||| 2147483648 < 4294967296 := by
    have := @Nat.or_lt_two_pow fs 2147483648 32
      (by norm_num; omega) (by norm_num)
    norm_num at this
    exact this
  exact Nat.mod_eq_of_lt hfsr

/-- A compressed entry decode fails when its trailing compressed-size
word is cut off (28 to 31 bytes available). -/
theorem parseOneEntry_comp_cut (data : Bytes) (off : Nat)
    (h28 : off + 28 ≤ data.length) (h32 : data.length < off + 32)
    (hbit : read32 data (off + 20) &&& 2147483648 ≠ 0) :
    parseOneEntry data none none none off = none := by
  simp only [parseOneEntry, readField]
  rw [safeUnpack_pos (by omega)]
  simp only [Option.bind_eq_bind, Option.some_bind]
  rw [safeUnpack_pos (by omega : off + 4 + 4 ≤ data.length)]
  simp only [Option.some_bind]
  rw [safeUnpack_pos (by omega : off + 4 + 4 + 4 ≤ data.length)]
  simp only [Option.some_bind]
  rw [safeUnpack_pos (by omega : off + 4 + 4 + 4 + 4 ≤ data.length)]
  simp only [Option.some_bind]
  rw [safeUnpack_pos (by omega : off + 4 + 4 + 4 + 4 + 4 ≤ data.length)]
  simp only [Option.some_bind]
  rw [safeUnpack_pos (by omega : off + 4 + 4 + 4 + 4 + 4 + 4 ≤ data.length)]
  simp only [Option.some_bind]
  rw [safeUnpack_pos (by omega : off + 4 + 4 + 4 + 4 + 4 + 4 + 4 ≤ data.length)]
  simp only [Option.some_bind]
  rw [show off + 4 + 4 + 4 + 4 + 4 = off + 20 by omega]
  have hb : (read32 data (off + 20) &&& 2147483648 != 0) = true := by
    simpa using hbit
  rw [if_pos hb]
  rw [safeUnpack_neg (by omega)]
  rfl

/-- Parsing a truncated encoded index entry run yields a prefix of the
entries: decoding stops at the first entry that is cut off.  When no
entry could be decoded, the truncation point lies within the first 32
bytes after the entries' start. -/
theorem parseEntriesLoop_take :
    ∀ (es : List IndexEntry) (pre : Bytes) (m : Nat), (∀ e ∈ es, entryWF e) →
      ∃ k, parseEntriesLoop ((pre ++ es.flatMap encodeEntry).take m) none none
          none es.length pre.length = es.take k ∧
        (k = 0 → es = [] ∨ m < pre.length + 32)
  | [], _, _, _ => ⟨0, rfl, fun _ => Or.inl rfl⟩
  | e :: es, pre, m, hwf => by
    have hwfe := hwf e (List.mem_cons_self e es)
    have hwfs : ∀ x ∈ es, entryWF x :=
      fun x hx => hwf x (List.mem_cons_of_mem e hx)
    have hlenE := encodeEntry_length e
    have hle32 : (encodeEntry e).length ≤ 32 := by
      rw [hlenE]
      split <;> norm_num
    have hassoc : pre ++ (e :: es).flatMap encodeEntry =
        (pre ++ encodeEntry e) ++ es.flatMap encodeEntry := by
      simp [List.append_assoc]
    by_cases hm : pre.length + (encodeEntry e).length ≤ m
    · -- the first entry is fully inside the truncated buffer
      have hplen : (pre ++ encodeEntry e).length =
          pre.length + (encodeEntry e).length := by simp
      have htake : (pre ++ (e :: es).flatMap encodeEntry).take m =
          pre ++ (encodeEntry e ++
            (es.flatMap encodeEntry).take (m - (pre ++ encodeEntry e).length)) := by
        rw [hassoc, List.take_append_eq_append_take,
          List.take_of_length_le (by omega), List.append_assoc]
      obtain ⟨k, hk, -⟩ := parseEntriesLoop_take es (pre ++ encodeEntry e) m hwfs
      refine ⟨k + 1, ?_, fun h => absurd h (Nat.succ_ne_zero k)⟩
      rw [htake]
      simp only [List.length_cons, parseEntriesLoop]
      rw [parseOneEntry_encode pre _ e hwfe]
      show e :: parseEntriesLoop (pre ++ (encodeEntry e ++
          (es.flatMap encodeEntry).take (m - (pre ++ encodeEntry e).length)))
          none none none es.length (pre.length + (encodeEntry e).length) =
        (e :: es).take (k + 1)
      have hback : ((pre ++ encodeEntry e) ++ es.flatMap encodeEntry).take m =
          pre ++ (encodeEntry e ++
            (es.flatMap encodeEntry).take (m - (pre ++ encodeEntry e).length)) := by
        rw [← hassoc]
        exact htake
      rw [← hback, ← hplen]
      rw [hk]
      rfl
    · -- the first entry is cut off: nothing decodes
      have hdl : ((pre ++ (e :: es).flatMap encodeEntry).take m).length ≤ m := by
        simp [List.length_take]
      have hm32 : m < pre.length + 32 := by omega
      refine ⟨0, ?_, fun _ => Or.inr hm32⟩
      simp only [List.length_cons, parseEntriesLoop]
      cases hcp : e.compressed with
      | false =>
        have henc : (encodeEntry e).length = 28 := by
          rw [hlenE, hcp]
          norm_num
        rw [henc] at hm
        rw [parseOneEntry_short _ _ (by omega)]
        rfl
      | true =>
        have henc : (encodeEntry e).length = 32 := by
          rw [hlenE, hcp]
          norm_num
        rw [henc] at hm
        by_cases h28 : pre.length + 28 ≤ m
        · have htot : pre.length + 32 ≤
              (pre ++ (e :: es).flatMap encodeEntry).length := by
            have hlen2 : ((pre ++ encodeEntry e) ++ es.flatMap encodeEntry).length =
                pre.length + (encodeEntry e).length +
                  (es.flatMap encodeEntry).length := by
              simp [Nat.add_assoc]
            rw [hassoc, hlen2, henc]
            omega
          have hdl2 : ((pre ++ (e :: es).flatMap encodeEntry).take m).length = m := by
            simp only [List.length_take]
            omega
          rw [parseOneEntry_comp_cut _ _ (by omega) (by omega) ?hbit]
          · rfl
          case hbit =>
            have hb1 : read32 ((pre ++ (e :: es).flatMap encodeEntry).take m)
                (pre.length + 20) =
                read32 (pre ++ (e :: es).flatMap encodeEntry) (pre.length + 20) :=
              read32_take (by omega)
            have hb2 : read32 (pre ++ (e :: es).flatMap encodeEntry)
                (pre.length + 20) = e.file_size ||| 2147483648 := by
              rw [show pre ++ (e :: es).flatMap encodeEntry =
                  pre ++ (encodeEntry e ++ es.flatMap encodeEntry)
                by rw [List.flatMap_cons]]
              exact read32_enc_fsr pre _ e hwfe hcp
            rw [hb1, hb2, or_top_and_top e.file_size hwfe.2.2.2.2.1]
            norm_num
        · rw [parseOneEntry_short _ _ (by omega)]
          rfl

theorem build_index_cons (e : IndexEntry) (es : List IndexEntry) :
    build_index (e :: es) = pack32 0 ++ (e :: es).flatMap encodeEntry := by
  unfold build_index
  rw [if_neg (by simp)]

theorem safeUnpack_flags (rest : Bytes) :
    safeUnpack (pack32 0 ++ rest) 0 = some (0, 4) := by
  have := @safeUnpack_pack32 ([] : Bytes) 0 rfl 0 rest
  simpa using this

/-- `_parse_index` inverts `_build_index` for well-formed entries. -/
theorem parse_index_build (es : List IndexEntry) (hwf : ∀ e ∈ es, entryWF e) :
    parse_index (build_index es) es.length = es := by
  cases es with
  | nil => rfl
  | cons e es =>
    rw [build_index_cons]
    unfold parse_index
    rw [if_neg (by
      intro h
      cases h with
      | inl h1 => simp at h1
      | inr h2 =>
        simp [pack32] at h2
        omega)]
    have hdb : parse_index_dbpf2 (pack32 0 ++ (e :: es).flatMap encodeEntry)
        (e :: es).length = some (e :: es) := by
      unfold parse_index_dbpf2
      rw [safeUnpack_flags]
      have hloop := parseEntriesLoop_encode (e :: es) (pack32 0) [] hwf
      rw [List.append_nil] at hloop
      have h4 : (pack32 0 : Bytes).length = 4 := rfl
      rw [h4] at hloop
      simp only [List.flatMap_cons, List.length_cons] at hloop
      simp [readConst, hloop]
    rw [hdb]

theorem parseEntriesLoop_length (data : Bytes) (ct cg cih : Option Nat) :
    ∀ (n : Nat) (off : Nat),
      (parseEntriesLoop data ct cg cih n off).length ≤ n
  | 0, _ => by simp [parseEntriesLoop]
  | n + 1, off => by
    simp only [parseEntriesLoop]
    cases parseOneEntry data ct cg cih off with
    | none => simp
    | some eo =>
      simp only [List.length_cons]
      have := parseEntriesLoop_length data ct cg cih n eo.2
      omega

theorem parse_index_dbpf2_some {data : Bytes} {count : Nat}
    {l : List IndexEntry} (h : parse_index_dbpf2 data count = some l) :
    l.length ≤ count := by
  unfold parse_index_dbpf2 at h
  cases h0 : safeUnpack data 0 with
  | none =>
    rw [h0] at h
    simp at h
  | some fl =>
    rw [h0] at h
    simp only [Option.bind_eq_bind, Option.some_bind] at h
    cases h1 : readConst data (decide (fl.1 &&& 1 ≠ 0)) fl.2 with
    | none =>
      rw [h1] at h
      simp at h
    | some c1 =>
      rw [h1] at h
      simp only [Option.some_bind] at h
      cases h2 : readConst data (decide (fl.1 &&& 2 ≠ 0)) c1.2 with
      | none =>
        rw [h2] at h
        simp at h
      | some c2 =>
        rw [h2] at h
        simp only [Option.some_bind] at h
        cases h3 : readConst data (decide (fl.1 &&& 4 ≠ 0)) c2.2 with
        | none =>
          rw [h3] at h
          simp at h
        | some c3 =>
          rw [h3] at h
          simp only [Option.some_bind, pure, Option.some.injEq] at h
          rw [← h]
          exact parseEntriesLoop_length data c1.1 c2.1 c3.1 count c3.2

theorem parse_index_fixed_some {data : Bytes} {count : Nat}
    {l : List IndexEntry} (h : parse_index_fixed data count = some l) :
    l.length ≤ count := by
  unfold parse_index_fixed at h
  by_cases h4 : data.length < 4
  · rw [if_pos h4] at h
    simp at h
  · rw [if_neg h4] at h
    simp only [Option.some.injEq] at h
    rw [← h]
    simp only [List.length_map, List.length_range]
    exact Nat.min_le_left _ _

/-- The record list `_parse_index` returns never exceeds the declared
count. -/
theorem parse_index_length (data : Bytes) (count : Nat) :
    (parse_index data count).length ≤ count := by
  unfold parse_index
  split
  · simp
  · cases hdb : parse_index_dbpf2 data count with
    | some l =>
      cases l with
      | nil =>
        cases hfx : parse_index_fixed data count with
        | some l2 =>
          cases l2 with
          | nil => simp
          | cons x xs => exact parse_index_fixed_some hfx
        | none => simp
      | cons x xs => exact parse_index_dbpf2_some hdb
    | none =>
      cases hfx : parse_index_fixed data count with
      | some l2 =>
        cases l2 with
        | nil => simp
        | cons x xs => exact parse_index_fixed_some hfx
      | none => simp

/-- A truncated `_build_index` stream parses to a prefix of the entries:
`_parse_index` stops at the first cut-off record, returns the records
decoded so far, and the fixed-layout fallback never produces spurious
records on such a stream. -/
theorem parse_index_take (es : List IndexEntry) (m : Nat)
    (hwf : ∀ e ∈ es, entryWF e) :
    ∃ k, parse_index ((build_index es).take m) es.length = es.take k := by
  cases es with
  | nil => exact ⟨0, rfl⟩
  | cons e es =>
    rw [build_index_cons]
    by_cases hm4 : m < 4
    · refine ⟨0, ?_⟩
      unfold parse_index
      rw [if_pos (Or.inr (by
        simp only [List.length_take]
        omega))]
      rfl
    · obtain ⟨k, hk, hk0⟩ := parseEntriesLoop_take (e :: es) (pack32 0) m hwf
      have h4 : (pack32 0 : Bytes).length = 4 := rfl
      rw [h4] at hk
      unfold parse_index
      rw [if_neg (by
        intro h
        cases h with
        | inl h1 => simp at h1
        | inr h2 =>
          simp only [List.length_take, List.length_append] at h2
          omega)]
      have hflags : safeUnpack ((pack32 0 ++ (e :: es).flatMap encodeEntry).take m)
          0 = some (0, 4) := by
        have hb : read32 ((pack32 0 ++ (e :: es).flatMap encodeEntry).take m) 0 =
            read32 (pack32 0 ++ (e :: es).flatMap encodeEntry) 0 :=
          read32_take (by omega)
        have hl : 0 + 4 ≤
            ((pack32 0 ++ (e :: es).flatMap encodeEntry).take m).length := by
          simp only [List.length_take, List.length_append]
          simp [pack32]
          omega
        rw [safeUnpack_pos hl, hb]
        have := safeUnpack_flags ((e :: es).flatMap encodeEntry)
        rw [safeUnpack_pos (by simp [pack32])] at this
        simp only [Option.some.injEq, Prod.mk.injEq] at this
        rw [this.1]
      have hdb : parse_index_dbpf2
          ((pack32 0 ++ (e :: es).flatMap encodeEntry).take m)
          (e :: es).length = some ((e :: es).take k) := by
        unfold parse_index_dbpf2
        rw [hflags]
        simp only [List.flatMap_cons, List.length_cons] at hk
        simp [readConst, hk]
      rw [hdb]
      cases hks : (e :: es).take k with
      | cons x xs =>
        refine ⟨k, ?_⟩
        rw [hks]
      | nil =>
        have hkz : k = 0 := by
          cases k with
          | zero => rfl
          | succ n => simp at hks
        have hm36 : m < 36 := by
          cases hk0 hkz with
          | inl h => simp at h
          | inr h =>
            rw [h4] at h
            omega
        refine ⟨0, ?_⟩
        have hfx : parse_index_fixed
            ((pack32 0 ++ (e :: es).flatMap encodeEntry).take m)
            (e :: es).length = some [] := by
          have hrem : ((pack32 0 ++ (e :: es).flatMap encodeEntry).take m).length
              ≤ m := by
            simp [List.length_take]
          have hge4 : 4 ≤
              ((pack32 0 ++ (e :: es).flatMap encodeEntry).take m).length := by
            simp only [List.length_take, List.length_append]
            simp [pack32]
            omega
          have hfv : read32 ((pack32 0 ++
              (e :: es).flatMap encodeEntry).take m) 0 = 0 := by
            have hb : read32 ((pack32 0 ++ (e :: es).flatMap encodeEntry).take m)
                0 = read32 (pack32 0 ++ (e :: es).flatMap encodeEntry) 0 :=
              read32_take (by omega)
            rw [hb]
            have := safeUnpack_flags ((e :: es).flatMap encodeEntry)
            rw [safeUnpack_pos (by simp [pack32])] at this
            simp only [Option.some.injEq, Prod.mk.injEq] at this
            exact this.1
          generalize hD : (pack32 0 ++ (e :: es).flatMap encodeEntry).take m = D
            at hrem hge4 hfv
          unfold parse_index_fixed
          rw [if_neg (by omega), hfv]
          have hL : (D.length - 4) / 32 = 0 := Nat.div_eq_of_lt (by omega)
          norm_num [hL]
        rw [hfx]
        rfl


/-- C6: `_parse_index` degrades gracefully on truncation: the record list it
returns never exceeds the declared count, and when a `_build_index` stream is
cut off at any byte position `m`, parsing stops at the first record that can
no longer be fully decoded and returns the records decoded so far — a prefix
of the original entry list — instead of raising (the per-entry `ValueError`
is caught and turned into an early break, and the fixed-layout fallback
yields no spurious records on such a stream). -/
theorem parse_index_truncation_partial (es : List IndexEntry) (m : Nat)
    (hwf : ∀ e ∈ es, entryWF e) :
    (∀ data count, (parse_index data count).length ≤ count) ∧
    ∃ k, parse_index ((build_index es).take m) es.length = es.take k :=
  ⟨fun data count => parse_index_length data count, parse_index_take es m hwf⟩

theorem parse_index_truncation_partial_witness :
    (∀ e ∈ ([c6eA, c6eB] : List IndexEntry), entryWF e) ∧
    ((∀ data count, (parse_index data count).length ≤ count) ∧
     ∃ k, parse_index ((build_index [c6eA, c6eB]).take 40)
        ([c6eA, c6eB] : List IndexEntry).length = [c6eA, c6eB].take k) :=
  ⟨by decide, parse_index_truncation_partial [c6eA, c6eB] 40 (by decide)⟩


/- ### Claim C1: round-trip of save and load -/

theorem blob_cons (p : ResKey × Resource) (ps : ResMap) :
    blob (p :: ps) = p.2.data ++ blob ps := by
  simp [blob]

theorem buildEntries_length : ∀ (rs : ResMap) (off : Nat),
    (buildEntries rs off).length = rs.length
  | [], _ => rfl
  | p :: ps, off => by
    simp [buildEntries, buildEntries_length ps]

theorem buildEntries_encode_length : ∀ (rs : ResMap) (off : Nat),
    ((buildEntries rs off).flatMap encodeEntry).length = 28 * rs.length
  | [], _ => rfl
  | p :: ps, off => by
    simp only [buildEntries, List.flatMap_cons, List.length_append,
      List.length_cons]
    rw [buildEntries_encode_length ps (off + p.2.data.length), encodeEntry_length]
    simp
    ring

theorem build_index_buildEntries_length (rs : ResMap) (off : Nat) :
    (build_index (buildEntries rs off)).length = 4 + 28 * rs.length := by
  unfold build_index
  by_cases h : buildEntries rs off = []
  · rw [if_pos h]
    have hl := buildEntries_length rs off
    rw [h] at hl
    simp only [List.length_nil] at hl
    rw [← hl]
    rfl
  · rw [if_neg h]
    rw [List.length_append, buildEntries_encode_length]
    rfl

theorem buildEntries_wf : ∀ (rs : ResMap) (off : Nat),
    (∀ p ∈ rs, p.1.1 < 4294967296 ∧ p.1.2.1 < 4294967296 ∧
      p.1.2.2 < 18446744073709551616 ∧ 0 < p.2.data.length ∧
      p.2.data.length < 2147483648) →
    off + (blob rs).length < 4294967296 →
    ∀ e ∈ buildEntries rs off, entryWF e
  | [], _, _, _ => by
    intro e he
    simp [buildEntries] at he
  | p :: ps, off, hb, hoff => by
    intro e he
    have hblen : (blob (p :: ps)).length =
        p.2.data.length + (blob ps).length := by
      simp [blob]
    rw [hblen] at hoff
    obtain ⟨h1, h2, h3, h4, h5⟩ := hb p (by simp)
    simp only [buildEntries, List.mem_cons] at he
    cases he with
    | inl h =>
      subst h
      refine ⟨h1, h2, h3, ?_, ?_, ?_⟩
      · show off < 4294967296
        omega
      · show p.2.data.length < 2147483648
        omega
      · show p.2.data.length < 2147483648
        omega
    | inr h =>
      exact buildEntries_wf ps (off + p.2.data.length)
        (fun q hq => hb q (by simp [hq])) (by omega) e h

theorem loadedMap_pairs : ∀ (rs : ResMap) (off : Nat),
    (loadedMap rs off).map (fun p => (p.1, p.2.data)) =
      rs.map (fun p => (p.1, p.2.data))
  | [], _ => rfl
  | p :: ps, off => by
    simp only [loadedMap, List.map_cons]
    rw [loadedMap_pairs ps (off + p.2.data.length)]

theorem aLookup_loadedMap (k : ResKey) : ∀ (rs : ResMap) (off : Nat),
    (aLookup k (loadedMap rs off)).map Resource.data =
      (aLookup k rs).map Resource.data
  | [], _ => rfl
  | p :: ps, off => by
    simp only [loadedMap, aLookup]
    by_cases hp : p.1 = k
    · simp [hp]
    · simp only [hp, if_false]
      exact aLookup_loadedMap k ps (off + p.2.data.length)


/-- The resource-extraction loop of `load`, run over the entries `save`
built, appends exactly the (key, payload) pairs of the saved container:
every slice is in bounds, non-empty, uncompressed, and keyed by a fresh
key, so each iteration is a plain append. -/
theorem load_fold (z : Bytes → Option Bytes) (fileData : Bytes) :
    ∀ (rs : ResMap) (off : Nat) (m : ResMap),
      ((rs.map Prod.fst).Nodup) →
      (∀ p ∈ rs, aLookup p.1 m = none) →
      (∀ p ∈ rs, 0 < p.2.data.length) →
      (fileData.drop off).take (blob rs).length = blob rs →
      off + (blob rs).length ≤ fileData.length →
      (buildEntries rs off).foldl (fun acc e => loadStep z fileData acc e) m =
        m ++ loadedMap rs off
  | [], off, m, _, _, _, _, _ => by
    simp [buildEntries, loadedMap]
  | p :: ps, off, m, hnd, hfresh, hpos, htake, hle => by
    have hL : 0 < p.2.data.length := hpos p (by simp)
    have hblen : (blob (p :: ps)).length =
        p.2.data.length + (blob ps).length := by
      simp [blob]
    rw [hblen] at hle
    rw [blob_cons, List.length_append] at htake
    simp only [List.map_cons, List.nodup_cons] at hnd
    obtain ⟨hpnotin, hnd2⟩ := hnd
    have hdata : (fileData.drop off).take p.2.data.length = p.2.data := by
      have h2 := congrArg (List.take p.2.data.length) htake
      rw [List.take_take] at h2
      rw [show min p.2.data.length (p.2.data.length + (blob ps).length) =
        p.2.data.length from by omega] at h2
      rw [List.take_left] at h2
      exact h2
    have hstep : loadStep z fileData m
        ⟨p.1.1, p.1.2.1, p.1.2.2, off, p.2.data.length, p.2.data.length,
          false⟩ =
        m ++ [(p.1, ⟨⟨p.1.1, p.1.2.1, p.1.2.2, off, p.2.data.length,
          p.2.data.length, false⟩, p.2.data⟩)] := by
      simp only [loadStep]
      rw [if_neg (show ¬ fileData.length ≤ off from by omega)]
      rw [show min (off + p.2.data.length) fileData.length =
        off + p.2.data.length from by omega]
      rw [show off + p.2.data.length - off = p.2.data.length from by omega]
      rw [hdata]
      rw [if_neg (show ¬ p.2.data.length = 0 from by omega)]
      rw [if_neg (by simp)]
      exact dictInsert_fresh m _ _ (hfresh p (by simp))
    simp only [buildEntries, List.foldl_cons]
    rw [hstep]
    have hfresh2 : ∀ q ∈ ps,
        aLookup q.1 (m ++ [(p.1, (⟨⟨p.1.1, p.1.2.1, p.1.2.2, off,
          p.2.data.length, p.2.data.length, false⟩, p.2.data⟩ :
            Resource))]) = none := by
      intro q hq
      rw [aLookup_append]
      rw [hfresh q (by simp [hq])]
      have hne : ¬ p.1 = q.1 := by
        intro h
        exact hpnotin (h ▸ List.mem_map_of_mem Prod.fst hq)
      simp [aLookup, hne]
    have htake2 : (fileData.drop (off + p.2.data.length)).take
        (blob ps).length = blob ps := by
      rw [← List.drop_drop]
      have h3 := congrArg (List.drop p.2.data.length) htake
      rw [List.drop_take] at h3
      rw [show p.2.data.length + (blob ps).length - p.2.data.length =
        (blob ps).length from by omega] at h3
      rw [List.drop_left] at h3
      exact h3
    rw [load_fold z fileData ps (off + p.2.data.length) _ hnd2 hfresh2
      (fun q hq => hpos q (by simp [hq])) htake2 (by omega)]
    simp [loadedMap, List.append_assoc]


theorem save_decomp (rs : ResMap) :
    save rs = save_header rs.length (96 + (blob rs).length)
      (build_index (buildEntries rs 96)).length ++ blob rs ++
      build_index (buildEntries rs 96) := rfl

theorem save_length (rs : ResMap) :
    (save rs).length =
      96 + (blob rs).length + (build_index (buildEntries rs 96)).length := by
  rw [save_decomp]
  simp [save_header_length, Nat.add_assoc]

theorem save_take2 (rs : ResMap) : (save rs).take 2 = [68, 66] := by
  rw [save_decomp]
  rfl

/-- Claim C1 amended: for every container whose resources have in-range key
fields, non-empty payloads under 2 GiB, unique keys, and a total serialized
size below 2^32, loading the stream written by `save` succeeds and yields a
resource map with the same keys in the same order and byte-identical
per-key payloads.  (Resources with empty payloads are dropped by the
loader, see the counterexample.) -/
theorem load_save_roundtrip (z : Bytes → Option Bytes) (rs : ResMap)
    (hWF : WFResources rs) :
    ∃ hd m, load z (save rs) = some (hd, m) ∧
      m.map (fun p => (p.1, p.2.data)) = rs.map (fun p => (p.1, p.2.data)) ∧
      ∀ k, (aLookup k m).map Resource.data =
        (aLookup k rs).map Resource.data := by
  obtain ⟨hnd, hbounds, hsize⟩ := hWF
  have hidxlen : (build_index (buildEntries rs 96)).length =
      4 + 28 * rs.length := build_index_buildEntries_length rs 96
  have hslen := save_length rs
  have htake96 : (save rs).take 96 = save_header rs.length
      (96 + (blob rs).length) (build_index (buildEntries rs 96)).length := by
    rw [save_decomp, List.append_assoc]
    exact List.take_left' (save_header_length _ _ _)
  have hreg : index_region (save rs) (96 + (blob rs).length)
      (build_index (buildEntries rs 96)).length =
      build_index (buildEntries rs 96) := by
    unfold index_region
    rw [if_neg (by omega)]
    rw [save_decomp]
    rw [List.drop_left' (by simp [save_header_length])]
    exact List.take_length _
  have hparse : parse_index (build_index (buildEntries rs 96)) rs.length =
      buildEntries rs 96 := by
    have hwfe := buildEntries_wf rs 96 hbounds (by omega)
    have hpb := parse_index_build (buildEntries rs 96) hwfe
    rwa [buildEntries_length] at hpb
  have htk : ((save rs).drop 96).take (blob rs).length = blob rs := by
    rw [save_decomp, List.append_assoc]
    rw [List.drop_left' (save_header_length _ _ _)]
    exact List.take_left (blob rs) (build_index (buildEntries rs 96))
  have hfold := load_fold z (save rs) rs 96 [] hnd (fun p _ => rfl)
    (fun p hp => (hbounds p hp).2.2.2.1) htk (by omega)
  refine ⟨⟨magicDBPF, 2, 1, rs.length, 96 + (blob rs).length,
    (build_index (buildEntries rs 96)).length, 0⟩, loadedMap rs 96, ?_,
    loadedMap_pairs rs 96, fun k => aLookup_loadedMap k rs 96⟩
  unfold load
  rw [if_neg (by rw [save_take2]; decide)]
  simp only [Option.bind_eq_bind, Option.some_bind]
  rw [if_neg (by omega)]
  rw [htake96]
  rw [from_bytes_save_header _ _ _ (by omega) (by omega) (by omega) (by omega)]
  simp only [Option.some_bind]
  rw [if_neg (by omega : ¬ 96 + (blob rs).length > (save rs).length)]
  rw [hreg, hparse, hfold]
  rw [List.nil_append]
  rfl



set_option maxRecDepth 4096 in
/-- Counterexample to claim C1 as stated: a container holding a resource
with an empty payload does NOT round-trip — `load` silently skips the
zero-length data slice, so the key disappears from the reloaded map. -/
theorem empty_payload_lost :
    load zlibNone (save rsEmptyPayload) =
      some (⟨magicDBPF, 2, 1, 1, 96, 32, 0⟩, []) ∧ rsEmptyPayload ≠ [] := by
  decide

/-- Witness for the amended C1 at a concrete one-resource container. -/
theorem load_save_roundtrip_witness :
    WFResources rs0 ∧
    ∃ hd m, load zlibNone (save rs0) = some (hd, m) ∧
      m.map (fun p => (p.1, p.2.data)) = rs0.map (fun p => (p.1, p.2.data)) ∧
      ∀ k, (aLookup k m).map Resource.data =
        (aLookup k rs0).map Resource.data :=
  ⟨by decide, load_save_roundtrip zlibNone rs0 (by decide)⟩


/- ### Claim C10: zero-length slices are skipped, but loaded payloads can
be empty -/

set_option maxRecDepth 8192 in
/-- Counterexample to claim C10 as stated: not every resource in a loaded
map has a non-empty payload.  A compressed record whose (non-empty) data
slice is a RefPack stream that decodes to zero bytes is inserted into the
map with an empty payload. -/
theorem loaded_empty_payload_exists :
    load zlibNone c10file =
      some (⟨magicDBPF, 2, 1, 1, 101, 36, 0⟩, c10m) ∧
    ∃ p ∈ c10m, p.2.data.length = 0 := by
  decide

/-- Claim C10 amended: the extraction loop of `load` silently skips an
index record — leaving the resource map unchanged, so the map can hold
fewer resources than the index declares — whenever the record's offset is
at or past the end of the stream, or its clamped in-file data slice is
zero-length. -/
theorem load_skips_empty_slice (z : Bytes → Option Bytes) (file : Bytes)
    (m : ResMap) (e : IndexEntry)
    (h : file.length ≤ e.offset ∨
      ((file.drop e.offset).take
        (min (e.offset + e.file_size) file.length - e.offset)).length = 0) :
    loadStep z file m e = m := by
  by_cases h1 : file.length ≤ e.offset
  · simp only [loadStep, if_pos h1]
  · cases h with
    | inl h2 => exact absurd h2 h1
    | inr h2 =>
      simp only [loadStep, if_neg h1]
      rw [if_pos h2]

/-- Witness for the amended C10: a one-byte stream and a record with a
zero-length slice leave the map untouched. -/
theorem load_skips_empty_slice_witness :
    (([0] : Bytes).length ≤ dummyEntry.offset ∨
      ((([0] : Bytes).drop dummyEntry.offset).take
        (min (dummyEntry.offset + dummyEntry.file_size) ([0] : Bytes).length -
          dummyEntry.offset)).length = 0) ∧
    loadStep zlibNone [0] [] dummyEntry = [] :=
  ⟨Or.inr (by decide), load_skips_empty_slice zlibNone [0] [] dummyEntry
    (Or.inr (by decide))⟩

end DBPF
